import Mathlib

/-!
# Weberver: the circular byte buffer and the bounded blocking deque

A shallow embedding of `class Buffer` (`src/buffer/buffer.cpp`) and of
`class BlockDeque<T>` (`src/log/blockqueue.h`), and theorems about them.

Modelling conventions for `Buffer` (those for `BlockDeque` stand with its
definitions).

* `std::vector<char> buffer_` is a `List Byte`; `buffer_.size()` is its length.
* `readPos_` and `writePos_` are `size_t` offsets, modelled as `Nat`.  Memory is
  idealised as unbounded: an allocation always succeeds and no `size_t` sum
  wraps.  Every subtraction of the source is guarded by the state invariant
  `Buffer.Valid`, under which it cannot underflow.
* A `char*` into the storage is modelled by its offset from `BeginPtr_()`.
* `assert(e)` is modelled as failure: an operation that contains an assertion
  returns `Option`, and `none` means that the assertion tripped.
* The system calls `readv` and `write` are modelled by their outcome, which is
  a parameter of `ReadFd` and `WriteFd`.
-/

namespace Weberver

/-- One `char` of storage. -/
abbrev Byte := Fin 256

/-- The data members of `class Buffer`. -/
structure Buffer where
  buffer_ : List Byte
  readPos_ : Nat
  writePos_ : Nat
deriving DecidableEq

/-- Raw outcome of one `write(2)` call: the returned `ssize_t` and the value of
`errno` it leaves behind. -/
structure SysResult where
  ret : Int
  errno : Int
deriving DecidableEq

/-- Outcome of the `readv(2)` call of `ReadFd`: either it fails (returns `-1`
and sets `errno`), or it delivers a sequence of bytes, filling `iov[0]` first and
`iov[1]` with what is left. -/
inductive ReadvResult where
  | error (errno : Int)
  | data (bytes : List Byte)
deriving DecidableEq

/-- What `ReadFd` leaves behind: the returned `ssize_t`, the value stored
through `saveErrno` (if any) and the buffer. -/
structure ReadFdResult where
  ret : Int
  saveErrno : Option Int
  buf : Buffer
deriving DecidableEq

/-- What `WriteFd` leaves behind: the returned `ssize_t`, the value stored
through `saveErrno` (if any), the buffer, and the byte ranges that were passed
to `write`, in call order. -/
structure WriteFdResult where
  ret : Int
  saveErrno : Option Int
  buf : Buffer
  offered : List (List Byte)
deriving DecidableEq

/-- `std::copy(src.begin(), src.end(), dst + pos)` on a vector `dst`: the bytes
of `dst` at offsets `pos .. pos + src.length` are replaced by `src`. -/
def copyInto (dst : List Byte) (pos : Nat) (src : List Byte) : List Byte :=
  dst.take pos ++ src ++ dst.drop (pos + src.length)

/-- The bytes of the iterator range `[v.begin() + first, v.begin() + last)` of a
vector `v`. -/
def slice (v : List Byte) (first last : Nat) : List Byte :=
  (v.drop first).take (last - first)

/-- Subtraction of two `size_t` values, `none` when it would underflow. -/
def checkedSub (a c : Nat) : Option Nat := if c ≤ a then some (a - c) else none

/-- The `n` bytes that a read of the range `[v.data() + pos, v.data() + pos + n)`
of a vector `v` sees; `none` when the range leaves the vector, where the read is
undefined. -/
def readRange (v : List Byte) (pos n : Nat) : Option (List Byte) :=
  if pos + n ≤ v.length then some ((v.drop pos).take n) else none

/-- `sizeof(extrabuff)` in `ReadFd`. -/
def extrabuffSize : Nat := 65535

namespace Buffer

/-- `Buffer::Buffer(int initBuffSize)`: value-initialised storage, both cursors 0. -/
def init (initBuffSize : Nat) : Buffer :=
  { buffer_ := List.replicate initBuffSize 0, readPos_ := 0, writePos_ := 0 }

/-- `buffer_.size()`. -/
def size (b : Buffer) : Nat := b.buffer_.length

/-- `Buffer::ReadableBytes`. -/
def ReadableBytes (b : Buffer) : Nat :=
  if b.writePos_ ≥ b.readPos_ then b.writePos_ - b.readPos_
  else b.size - b.readPos_ + b.writePos_

/-- `Buffer::WritableBytes`. -/
def WritableBytes (b : Buffer) : Nat :=
  if b.writePos_ ≥ b.readPos_ then b.size - b.writePos_ + b.readPos_ - 1
  else b.readPos_ - b.writePos_ - 1

/-- `Buffer::PrependableBytes`. -/
def PrependableBytes (b : Buffer) : Nat := b.readPos_

/-- `Buffer::Peek`, as an offset from `BeginPtr_()`. -/
def Peek (b : Buffer) : Nat := b.readPos_

/-- `Buffer::Retrieve`. -/
def Retrieve (b : Buffer) (len : Nat) : Option Buffer :=
  if len ≤ b.ReadableBytes then
    let readPos := (b.readPos_ + len) % b.size
    if readPos = b.writePos_ then
      some { b with readPos_ := 0, writePos_ := 0 }
    else
      some { b with readPos_ := readPos }
  else none

/-- `Buffer::RetrieveUntil`; `end_` is the offset of the marker from
`BeginPtr_()`. -/
def RetrieveUntil (b : Buffer) (end_ : Nat) : Option Buffer :=
  if end_ ≥ b.Peek then
    b.Retrieve (end_ - b.Peek)
  else
    let endOffset := end_
    let readOffset := b.readPos_
    let len := b.size - readOffset + endOffset
    b.Retrieve len

/-- `Buffer::RetrieveAll`. -/
def RetrieveAll (b : Buffer) : Buffer :=
  { b with readPos_ := 0, writePos_ := 0 }

/-- `Buffer::RetrieveAllToStr`: the returned string and the buffer afterwards. -/
def RetrieveAllToStr (b : Buffer) : List Byte × Buffer :=
  let readable := b.ReadableBytes
  let result :=
    if b.writePos_ ≥ b.readPos_ then
      (b.buffer_.drop b.readPos_).take readable
    else
      let firstPart := b.size - b.readPos_
      (b.buffer_.drop b.readPos_).take firstPart ++ b.buffer_.take b.writePos_
  (result, b.RetrieveAll)

/-- `Buffer::BeginWrite`, as an offset from `BeginPtr_()`. -/
def BeginWrite (b : Buffer) : Nat := b.writePos_

/-- `Buffer::HasWritten`. -/
def HasWritten (b : Buffer) (len : Nat) : Option Buffer :=
  if len ≤ b.WritableBytes then
    some { b with writePos_ := (b.writePos_ + len) % b.size }
  else none

/-- The copy block that both branches of `MakeSpace_` contain: the readable
bytes are copied to the start of `dst`, as one range when
`readPos_ <= writePos_`, and otherwise as the range up to the end of storage
followed, at offset `first_part`, by the range from offset 0. -/
def copyReadable (b : Buffer) (dst : List Byte) : List Byte :=
  if b.readPos_ ≤ b.writePos_ then
    copyInto dst 0 (slice b.buffer_ b.readPos_ b.writePos_)
  else
    let first_part := b.size - b.readPos_
    let dst1 := copyInto dst 0 (slice b.buffer_ b.readPos_ b.size)
    copyInto dst1 first_part (slice b.buffer_ 0 b.writePos_)

/-- `Buffer::MakeSpace_`. -/
def MakeSpace_ (b : Buffer) (len : Nat) : Buffer :=
  if b.WritableBytes + b.PrependableBytes < len + 1 then
    let readable := b.ReadableBytes
    let newSize := (b.size + len) * 2
    let newBuffer : List Byte := List.replicate newSize 0
    let newBuffer := b.copyReadable newBuffer
    { buffer_ := newBuffer, readPos_ := 0, writePos_ := readable }
  else
    let readable := b.ReadableBytes
    let temp : List Byte := List.replicate readable 0
    let temp := b.copyReadable temp
    { buffer_ := copyInto b.buffer_ 0 temp, readPos_ := 0, writePos_ := readable }

/-- `Buffer::EnsureWriteable`. -/
def EnsureWriteable (b : Buffer) (len : Nat) : Option Buffer :=
  let b1 := if b.WritableBytes < len then b.MakeSpace_ len else b
  if b1.WritableBytes ≥ len then some b1 else none

/-- `Buffer::Append(const char* str, size_t len)`; the source range is the list
`str`, so `len` is `str.length`. -/
def Append (b : Buffer) (str : List Byte) : Option Buffer :=
  match b.EnsureWriteable str.length with
  | none => none
  | some b1 =>
    let len := str.length
    let remainingSpace := b1.size - b1.writePos_
    let firstPartLen := min len remainingSpace
    let buf1 := copyInto b1.buffer_ b1.writePos_ (str.take firstPartLen)
    let buf2 := if firstPartLen < len then copyInto buf1 0 (str.drop firstPartLen) else buf1
    HasWritten { b1 with buffer_ := buf2 } len

/-- The length `contiguous_writable` computed at the start of `ReadFd`. -/
def contiguousWritable (b : Buffer) : Nat :=
  let writable := b.WritableBytes
  if b.writePos_ + writable > b.size then b.size - b.writePos_ else writable

/-- `Buffer::ReadFd`.  `readv` is given `iov[0]` (the storage at `writePos_`,
`contiguous_writable` bytes) and `iov[1]` (`extrabuff`), so it delivers at most
`contiguous_writable + sizeof(extrabuff)` bytes, the first `contiguous_writable`
of them into the storage. -/
def ReadFd (b : Buffer) (r : ReadvResult) : Option ReadFdResult :=
  let contiguous_writable := b.contiguousWritable
  match r with
  | .error errno => some { ret := -1, saveErrno := some errno, buf := b }
  | .data bytes =>
    let delivered := bytes.take (contiguous_writable + extrabuffSize)
    let len := delivered.length
    let b0 : Buffer :=
      { b with buffer_ := copyInto b.buffer_ b.writePos_ (delivered.take contiguous_writable) }
    let extrabuff := delivered.drop contiguous_writable
    if len ≤ contiguous_writable then
      match b0.HasWritten len with
      | none => none
      | some b1 => some { ret := len, saveErrno := none, buf := b1 }
    else
      let buffer_filled := contiguous_writable
      let extra_data := len - buffer_filled
      match b0.HasWritten buffer_filled with
      | none => none
      | some b1 =>
        match b1.Append (extrabuff.take extra_data) with
        | none => none
        | some b2 => some { ret := len, saveErrno := none, buf := b2 }

/-- `Buffer::WriteFd`.  `w1` is the outcome of the first `write` call and `w2`
that of the second one (consulted only when the call is made). -/
def WriteFd (b : Buffer) (w1 w2 : SysResult) : Option WriteFdResult :=
  let readable := b.ReadableBytes
  if readable = 0 then some { ret := 0, saveErrno := none, buf := b, offered := [] }
  else if b.writePos_ > b.readPos_ then
    let seg := (b.buffer_.drop b.Peek).take readable
    let len := w1.ret
    if len < 0 then
      some { ret := len, saveErrno := some w1.errno, buf := b, offered := [seg] }
    else
      match b.Retrieve len.toNat with
      | none => none
      | some b1 => some { ret := len, saveErrno := none, buf := b1, offered := [seg] }
  else
    let first_part := b.size - b.readPos_
    let seg1 := (b.buffer_.drop b.Peek).take first_part
    let len1 := w1.ret
    if len1 < 0 then
      some { ret := len1, saveErrno := some w1.errno, buf := b, offered := [seg1] }
    else
      match b.Retrieve len1.toNat with
      | none => none
      | some b1 =>
        let total_written := len1
        if len1.toNat = first_part ∧ b1.writePos_ > 0 then
          let seg2 := (b1.buffer_.drop b1.Peek).take b1.writePos_
          let len2 := w2.ret
          if len2 < 0 then
            some { ret := total_written, saveErrno := some w2.errno, buf := b1,
                   offered := [seg1, seg2] }
          else
            match b1.Retrieve len2.toNat with
            | none => none
            | some b2 =>
              some { ret := total_written + len2, saveErrno := none, buf := b2,
                     offered := [seg1, seg2] }
        else
          some { ret := total_written, saveErrno := none, buf := b1, offered := [seg1] }

/-- `Buffer::NextPos`. -/
def NextPos (b : Buffer) (pos len : Nat) : Nat := (pos + len) % b.size

/-- The state invariant: non-empty storage and both cursors inside it. -/
def Valid (b : Buffer) : Prop :=
  0 < b.size ∧ b.readPos_ < b.size ∧ b.writePos_ < b.size

instance (b : Buffer) : Decidable b.Valid := by
  unfold Valid; infer_instance

/-- The readable bytes as their one or two storage segments: one range when
`readPos_ <= writePos_`, otherwise the range up to the end of storage followed
by the range from offset 0. -/
def gather (b : Buffer) : List Byte :=
  if b.readPos_ ≤ b.writePos_ then
    (b.buffer_.drop b.readPos_).take (b.writePos_ - b.readPos_)
  else
    b.buffer_.drop b.readPos_ ++ b.buffer_.take b.writePos_

/-- The readable bytes, read circularly: byte `i` of the readable region is the
storage byte at offset `(readPos_ + i) % buffer_.size()`, for
`i < ReadableBytes()`. -/
def readable (b : Buffer) : List Byte :=
  (List.range b.ReadableBytes).map fun i => b.buffer_.getD ((b.readPos_ + i) % b.size) 0

/-- One call of a client that only appends and retrieves. -/
inductive Call where
  | append (str : List Byte)
  | retrieve (len : Nat)
deriving DecidableEq

/-- Perform one call; `none` when an assertion trips inside it. -/
def step (b : Buffer) : Call → Option Buffer
  | .append str => b.Append str
  | .retrieve len => b.Retrieve len

/-- Perform a sequence of calls from left to right, stopping with `none` at the
first call in which an assertion trips. -/
def runCalls (b : Buffer) : List Call → Option Buffer
  | [] => some b
  | c :: rest =>
    match b.step c with
    | none => none
    | some b1 => runCalls b1 rest

/-- Append the strings of a list one after another. -/
def appendAll (b : Buffer) : List (List Byte) → Option Buffer
  | [] => some b
  | str :: rest =>
    match b.Append str with
    | none => none
    | some b1 => appendAll b1 rest

/-- The states a client can reach from a freshly constructed buffer of positive
capacity through the public mutators, each call completing (no assertion
tripped).  `store` is a write of the client through the pointer returned by
`BeginWrite()`: it changes storage bytes, never the size or the cursors. -/
inductive Reachable : Buffer → Prop
  | init (n : Nat) (h : 0 < n) : Reachable (Buffer.init n)
  | append (b b1 : Buffer) (str : List Byte) :
      Reachable b → b.Append str = some b1 → Reachable b1
  | retrieve (b b1 : Buffer) (len : Nat) :
      Reachable b → b.Retrieve len = some b1 → Reachable b1
  | retrieveUntil (b b1 : Buffer) (end_ : Nat) :
      Reachable b → b.RetrieveUntil end_ = some b1 → Reachable b1
  | retrieveAll (b : Buffer) : Reachable b → Reachable b.RetrieveAll
  | retrieveAllToStr (b : Buffer) : Reachable b → Reachable b.RetrieveAllToStr.2
  | ensureWriteable (b b1 : Buffer) (len : Nat) :
      Reachable b → b.EnsureWriteable len = some b1 → Reachable b1
  | hasWritten (b b1 : Buffer) (len : Nat) :
      Reachable b → b.HasWritten len = some b1 → Reachable b1
  | store (b : Buffer) (bytes : List Byte) :
      Reachable b → bytes.length = b.size → Reachable { b with buffer_ := bytes }

/-- The part of the readable region that lies between `readPos_` and the end of
storage: all of it when the region does not wrap. -/
def trailingSegment (b : Buffer) : List Byte :=
  b.readable.take (b.size - b.readPos_)

/-- The part of the readable region that lies at the start of storage: empty
when the region does not wrap. -/
def leadingSegment (b : Buffer) : List Byte :=
  b.readable.drop (b.size - b.readPos_)

/-- The condition under which `WriteFd` is to make a second `write` call: the
first call wrote the whole trailing segment and a leading segment exists. -/
def secondWrite (b : Buffer) (w1 : SysResult) : Prop :=
  w1.ret = b.trailingSegment.length ∧ b.leadingSegment ≠ []

instance (b : Buffer) (w1 : SysResult) : Decidable (b.secondWrite w1) := by
  unfold secondWrite; infer_instance

/-- `Buffer::ReadableBytes` with every `size_t` subtraction checked: `none`
when a subtraction would underflow. -/
def ReadableBytesChecked (b : Buffer) : Option Nat :=
  if b.writePos_ ≥ b.readPos_ then checkedSub b.writePos_ b.readPos_
  else (checkedSub b.size b.readPos_).map (· + b.writePos_)

/-- `Buffer::WritableBytes` with every `size_t` subtraction checked: `none`
when a subtraction would underflow. -/
def WritableBytesChecked (b : Buffer) : Option Nat :=
  if b.writePos_ ≥ b.readPos_ then
    ((checkedSub b.size b.writePos_).map (· + b.readPos_)).bind (checkedSub · 1)
  else (checkedSub b.readPos_ b.writePos_).bind (checkedSub · 1)

/-- `Buffer::Append(const Buffer& buff)`: `Append(buff.Peek(), buff.ReadableBytes())`.
The source range starts at `buff.Peek()` and is `buff.ReadableBytes()` long; `none`
when it leaves the storage of `buff` (`readRange`) or when an assertion trips in
`Append`. -/
def AppendBuffer (b buff : Buffer) : Option Buffer :=
  match readRange buff.buffer_ buff.Peek buff.ReadableBytes with
  | none => none
  | some str => b.Append str

/-- Storage offset `i` holds a readable byte: it is `(readPos_ + k) % size` for
some `k < ReadableBytes()`. -/
def isReadableOffset (b : Buffer) (i : Nat) : Prop :=
  ∃ k, k < b.ReadableBytes ∧ (b.readPos_ + k) % b.size = i

instance (b : Buffer) (i : Nat) : Decidable (b.isReadableOffset i) := by
  unfold isReadableOffset; infer_instance

/-- The offset of the reserved byte: the one just before `readPos_`, circularly.
`writePos_` never moves onto it while bytes are readable behind it, so that
`readPos_ == writePos_` only happens for an empty buffer. -/
def reservedOffset (b : Buffer) : Nat := (b.readPos_ + b.size - 1) % b.size

/-- Storage offset `i` is free: inside the storage, neither readable nor the
reserved byte. -/
def isFreeOffset (b : Buffer) (i : Nat) : Prop :=
  i < b.size ∧ ¬ b.isReadableOffset i ∧ i ≠ b.reservedOffset

instance (b : Buffer) (i : Nat) : Decidable (b.isFreeOffset i) := by
  unfold isFreeOffset; infer_instance

/-- The number of consecutive free offsets `pos, pos + 1, ..`, looking at no
more than `n` of them. -/
def freeRunFrom (b : Buffer) (pos : Nat) : Nat → Nat
  | 0 => 0
  | n + 1 => if b.isFreeOffset pos then freeRunFrom b (pos + 1) n + 1 else 0

/-- The length of the longest run of free bytes that starts at `writePos_`. -/
def freeRun (b : Buffer) : Nat := b.freeRunFrom b.writePos_ (b.size - b.writePos_)

end Buffer

/-- The ten bytes of the string "0123456789". -/
def digits : List Byte := [48, 49, 50, 51, 52, 53, 54, 55, 56, 57]

/-- A buffer of capacity 32 after `Append("0123456789")`. -/
def afterAppend10 : Buffer :=
  { buffer_ := digits ++ List.replicate 22 0, readPos_ := 0, writePos_ := 10 }

/-- A buffer of capacity 32 after `Append("0123456789")` and `Retrieve(4)`. -/
def afterRetrieve4 : Buffer :=
  { buffer_ := digits ++ List.replicate 22 0, readPos_ := 4, writePos_ := 10 }

/-- A buffer of capacity 8 after an `Append` of the four bytes 1, 2, 3, 4 and
`Retrieve(2)`. -/
def smallBuffer : Buffer :=
  { buffer_ := [1, 2, 3, 4, 0, 0, 0, 0], readPos_ := 2, writePos_ := 4 }

/-- A buffer of capacity 8 whose readable region wraps: the readable bytes are
7, 8, 1, 2. -/
def wrappedBuffer : Buffer :=
  { buffer_ := [1, 2, 3, 4, 5, 6, 7, 8], readPos_ := 6, writePos_ := 2 }

/-! ### The bounded blocking deque (`src/log/blockqueue.h`)

The step model.  The state is what the operations read and write under the
mutex `mtx_`: the deque, the capacity and the closed flag.  Each operation is one
critical section.  A call whose wait condition holds in a state does not
complete in that state: it waits on its condition variable, and the model
returns `none` for it.  The mutex, the condition variables and the wake-ups are
not state of the model, and a failing allocation in `push_back` / `push_front` is
not modelled. -/

/-- The data members of `BlockDeque<T>` other than the mutex and the condition
variables. -/
structure BlockDeque (T : Type) where
  deq_ : List T
  capacity_ : Nat
  isClose_ : Bool
deriving DecidableEq

/-- What a `pop` call leaves behind: the returned `bool`, the value stored
through `item` (if any) and the queue. -/
structure PopResult (T : Type) where
  ret : Bool
  item : Option T
  q : BlockDeque T
deriving DecidableEq

namespace BlockDeque

/-- `BlockDeque::BlockDeque(size_t MaxCapacity)`; `none` when
`assert(MaxCapacity > 0)` trips. -/
def init {T : Type} (MaxCapacity : Nat) : Option (BlockDeque T) :=
  if MaxCapacity > 0 then some { deq_ := [], capacity_ := MaxCapacity, isClose_ := false }
  else none

/-- `BlockDeque::Close`. -/
def Close {T : Type} (q : BlockDeque T) : BlockDeque T :=
  { q with deq_ := [], isClose_ := true }

/-- `BlockDeque::flush`: a notification only. -/
def flush {T : Type} (q : BlockDeque T) : BlockDeque T := q

/-- `BlockDeque::clear`. -/
def clear {T : Type} (q : BlockDeque T) : BlockDeque T :=
  { q with deq_ := [] }

/-- `BlockDeque::front`; `none` on an empty deque, where `deq_.front()` is
undefined. -/
def front {T : Type} (q : BlockDeque T) : Option T := q.deq_.head?

/-- `BlockDeque::back`; `none` on an empty deque, where `deq_.back()` is
undefined. -/
def back {T : Type} (q : BlockDeque T) : Option T := q.deq_.getLast?

/-- `BlockDeque::size`. -/
def size {T : Type} (q : BlockDeque T) : Nat := q.deq_.length

/-- `BlockDeque::capacity`. -/
def capacity {T : Type} (q : BlockDeque T) : Nat := q.capacity_

/-- `BlockDeque::empty`. -/
def empty {T : Type} (q : BlockDeque T) : Bool := q.deq_.isEmpty

/-- `BlockDeque::full`. -/
def full {T : Type} (q : BlockDeque T) : Bool := decide (q.deq_.length ≥ q.capacity_)

/-- `BlockDeque::push_back`; `none` while the call waits
(`deq_.size() >= capacity_ && !isClose_`). -/
def push_back {T : Type} (q : BlockDeque T) (item : T) : Option (BlockDeque T) :=
  if q.deq_.length ≥ q.capacity_ ∧ q.isClose_ = false then none
  else if q.isClose_ then some q
  else some { q with deq_ := q.deq_ ++ [item] }

/-- `BlockDeque::push_front`; `none` while the call waits
(`deq_.size() >= capacity_ && !isClose_`). -/
def push_front {T : Type} (q : BlockDeque T) (item : T) : Option (BlockDeque T) :=
  if q.deq_.length ≥ q.capacity_ ∧ q.isClose_ = false then none
  else if q.isClose_ then some q
  else some { q with deq_ := item :: q.deq_ }

/-- `BlockDeque::pop(T &item)`; `none` while the call waits: the loop condition
`deq_.empty() || isClose_` holds and the queue is not both closed and empty. -/
def pop {T : Type} (q : BlockDeque T) : Option (PopResult T) :=
  if q.deq_.isEmpty ∨ q.isClose_ then
    if q.isClose_ ∧ q.deq_.isEmpty then some { ret := false, item := none, q := q }
    else none
  else
    match q.deq_ with
    | [] => none
    | x :: rest => some { ret := true, item := some x, q := { q with deq_ := rest } }

/-- `BlockDeque::pop(T &item, int timeout)`, as the call completes in a state:
where the untimed `pop` returns `false` or waits, this one returns `false`, at
once or when `wait_for` reports the timeout. -/
def popTimeout {T : Type} (q : BlockDeque T) (_timeout : Int) : PopResult T :=
  if q.deq_.isEmpty ∨ q.isClose_ then
    { ret := false, item := none, q := q }
  else
    match q.deq_ with
    | [] => { ret := false, item := none, q := q }
    | x :: rest => { ret := true, item := some x, q := { q with deq_ := rest } }

/-- One completed call of a mutator. -/
inductive Step {T : Type} : BlockDeque T → BlockDeque T → Prop
  | push_back (q q1 : BlockDeque T) (item : T) : q.push_back item = some q1 → Step q q1
  | push_front (q q1 : BlockDeque T) (item : T) : q.push_front item = some q1 → Step q q1
  | pop (q : BlockDeque T) (r : PopResult T) : q.pop = some r → Step q r.q
  | popTimeout (q : BlockDeque T) (timeout : Int) : Step q (q.popTimeout timeout).q
  | clear (q : BlockDeque T) : Step q q.clear
  | flush (q : BlockDeque T) : Step q q.flush
  | Close (q : BlockDeque T) : Step q q.Close

/-- The states reachable from construction with a capacity that passes the
constructor's assertion, through completed calls. -/
def Reachable {T : Type} (q : BlockDeque T) : Prop :=
  ∃ n q0, init n = some q0 ∧ Relation.ReflTransGen Step q0 q

/-- A call of a producer (`push_back`) or of the consumer (`pop`). -/
inductive QCall (T : Type) where
  | push_back (item : T)
  | pop
deriving DecidableEq

/-- The items that a sequence of calls pushes, in call order. -/
def pushed {T : Type} : List (QCall T) → List T
  | [] => []
  | .push_back item :: rest => item :: pushed rest
  | .pop :: rest => pushed rest

/-- Perform a sequence of calls one after another, none of which has to wait:
the result lists what each `pop` returned and stored, in call order; `none` when
some call would wait. -/
def runCalls {T : Type} (q : BlockDeque T) : List (QCall T) → Option (List (Bool × Option T) × BlockDeque T)
  | [] => some ([], q)
  | .push_back item :: rest =>
    match q.push_back item with
    | none => none
    | some q1 => runCalls q1 rest
  | .pop :: rest =>
    match q.pop with
    | none => none
    | some r =>
      match runCalls r.q rest with
      | none => none
      | some (out, q2) => some ((r.ret, r.item) :: out, q2)

/-- `N` `push_back` / `pop` pairs. -/
def pairs {T : Type} (items : List T) : List (QCall T) :=
  items.flatMap fun item => [.push_back item, .pop]

/-- A `push_back` call over time: while it waits, the critical sections `others`
of other threads run, and after each of them the call is woken and checks its
wait condition again.  `none`: the call still waits when `others` is used up. -/
def push_back_wait {T : Type} (q : BlockDeque T) (item : T) :
    List (BlockDeque T → BlockDeque T) → Option (BlockDeque T)
  | [] => q.push_back item
  | act :: rest =>
    match q.push_back item with
    | some q1 => some q1
    | none => push_back_wait (act q) item rest

/-- The critical section of a `pop` call of another thread. -/
def popSection {T : Type} (q : BlockDeque T) : BlockDeque T :=
  match q.pop with
  | some r => r.q
  | none => q

/-- The queue is open and full: `size() == capacity()`, of a capacity that
passes the constructor's assertion. -/
def FullOpen {T : Type} (q : BlockDeque T) : Prop :=
  q.isClose_ = false ∧ q.deq_.length = q.capacity_ ∧ 0 < q.capacity_

/-- The invariant of the step model: the size is at most the capacity, and a
closed queue is empty. -/
def Inv {T : Type} (q : BlockDeque T) : Prop :=
  q.deq_.length ≤ q.capacity_ ∧ (q.isClose_ = true → q.deq_ = [])

end BlockDeque

end Weberver

/-! ## Arithmetic and list lemmas -/

namespace Weberver

theorem mod_small_or_wrap (x c : Nat) (h : x < 2 * c) :
    (x < c ∧ x % c = x) ∨ (c ≤ x ∧ x % c = x - c) := by
  by_cases hx : x < c
  · exact Or.inl ⟨hx, Nat.mod_eq_of_lt hx⟩
  · right
    refine ⟨by omega, ?_⟩
    rw [Nat.mod_eq_sub_mod (by omega)]
    exact Nat.mod_eq_of_lt (by omega)

theorem copyInto_length (dst : List Byte) (pos : Nat) (src : List Byte)
    (h : pos + src.length ≤ dst.length) : (copyInto dst pos src).length = dst.length := by
  simp [copyInto]; omega

theorem getD_range_map (l : List Byte) (k n : Nat) (h : k + n ≤ l.length) :
    ((List.range n).map fun i => l.getD (k + i) 0) = (l.drop k).take n := by
  apply List.ext_getElem?
  intro i
  by_cases hi : i < n
  · simp [List.getElem?_map, List.getElem?_range hi, List.getElem?_take, hi, List.getD_eq_getElem?_getD]
    have : k + i < l.length := by omega
    simp [List.getElem?_eq_getElem this]
  · simp [List.getElem?_eq_none, hi, List.getElem?_take]
    omega

namespace Buffer

theorem readable_length (b : Buffer) : b.readable.length = b.ReadableBytes := by
  simp [readable]

theorem readable_add_writable (b : Buffer) (h : b.Valid) :
    b.ReadableBytes + b.WritableBytes = b.size - 1 := by
  obtain ⟨h0, hr, hw⟩ := h
  unfold ReadableBytes WritableBytes
  split <;> omega

end Buffer
end Weberver

/-! ## The readable region -/

namespace Weberver
namespace Buffer

theorem readable_eq_gather (b : Buffer) (h : b.Valid) : b.readable = b.gather := by
  obtain ⟨h0, hr, hw⟩ := h
  unfold readable gather ReadableBytes
  by_cases hrw : b.readPos_ ≤ b.writePos_
  · simp only [ge_iff_le, hrw, if_true]
    rw [← getD_range_map b.buffer_ b.readPos_ (b.writePos_ - b.readPos_) (by unfold size at *; omega)]
    apply List.map_congr_left
    intro i hi
    rw [List.mem_range] at hi
    rw [Nat.mod_eq_of_lt (by omega)]
  · simp only [ge_iff_le, hrw, if_false]
    rw [List.range_add, List.map_append, List.map_map]
    congr 1
    · have h1 : b.buffer_.drop b.readPos_ = (b.buffer_.drop b.readPos_).take (b.size - b.readPos_) := by
        rw [List.take_of_length_le]; simp [size]
      rw [h1, ← getD_range_map b.buffer_ b.readPos_ (b.size - b.readPos_) (by unfold size at *; omega)]
      apply List.map_congr_left
      intro i hi
      rw [List.mem_range] at hi
      rw [Nat.mod_eq_of_lt (by omega)]
    · have h2 : b.buffer_.take b.writePos_ = (b.buffer_.drop 0).take b.writePos_ := by simp
      rw [h2, ← getD_range_map b.buffer_ 0 b.writePos_ (by unfold size at *; omega)]
      apply List.map_congr_left
      intro i hi
      rw [List.mem_range] at hi
      simp only [Function.comp, Nat.zero_add]
      have : b.readPos_ + (b.size - b.readPos_ + i) = i + b.size := by omega
      rw [this, Nat.add_mod_right, Nat.mod_eq_of_lt (by omega)]

theorem RetrieveAllToStr_fst (b : Buffer) (h : b.Valid) : b.RetrieveAllToStr.1 = b.gather := by
  obtain ⟨h0, hr, hw⟩ := h
  unfold RetrieveAllToStr gather ReadableBytes
  by_cases hrw : b.readPos_ ≤ b.writePos_
  · simp [hrw]
  · simp only [ge_iff_le, hrw, if_false]
    rw [List.take_of_length_le]; simp [size]

end Buffer
end Weberver

/-! ## Retrieve -/

namespace Weberver
namespace Buffer

theorem readable_le (b : Buffer) (h : b.Valid) : b.ReadableBytes ≤ b.size - 1 := by
  have := readable_add_writable b h; omega

theorem readPos_add_mod (b : Buffer) (len : Nat) (hv : b.Valid) (hlen : len ≤ b.ReadableBytes) :
    ((b.readPos_ + len) % b.size = b.writePos_ ↔ len = b.ReadableBytes) ∧
    (len < b.ReadableBytes →
      (if b.writePos_ ≥ (b.readPos_ + len) % b.size then b.writePos_ - (b.readPos_ + len) % b.size
       else b.size - (b.readPos_ + len) % b.size + b.writePos_) = b.ReadableBytes - len) := by
  have hle := readable_le b hv
  obtain ⟨h0, hr, hw⟩ := hv
  have hb : b.readPos_ + len < 2 * b.size := by omega
  unfold ReadableBytes at *
  rcases mod_small_or_wrap (b.readPos_ + len) b.size hb with ⟨h1, h2⟩ | ⟨h1, h2⟩
  · rw [h2]; split at hlen <;> constructor <;> intros <;> (try split) <;> omega
  · rw [h2]; split at hlen <;> constructor <;> intros <;> (try split) <;> omega

theorem Retrieve_eq (b : Buffer) (len : Nat) (hv : b.Valid) (hlen : len ≤ b.ReadableBytes) :
    b.Retrieve len = some (if len = b.ReadableBytes then { b with readPos_ := 0, writePos_ := 0 }
      else { b with readPos_ := (b.readPos_ + len) % b.size }) := by
  have h := (readPos_add_mod b len hv hlen).1
  unfold Retrieve
  simp only [hlen, if_true]
  by_cases hl : len = b.ReadableBytes
  · simp only [hl, if_true]; rw [if_pos (by rw [← hl]; exact h.2 hl)]
  · simp only [hl, if_false]; rw [if_neg (fun hh => hl (h.1 hh))]

theorem Retrieve_valid (b b1 : Buffer) (len : Nat) (hv : b.Valid) (h : b.Retrieve len = some b1) :
    b1.Valid ∧ b1.buffer_ = b.buffer_ := by
  obtain ⟨h0, hr, hw⟩ := hv
  unfold Retrieve at h
  split at h
  · simp only at h
    split at h <;> (injection h with h; subst h; simp [Valid, size] at *)
    · exact h0
    · exact ⟨h0, Nat.mod_lt _ h0, hw⟩
  · cases h

theorem Retrieve_readable (b b1 : Buffer) (len : Nat) (hv : b.Valid) (hlen : len ≤ b.ReadableBytes)
    (h : b.Retrieve len = some b1) :
    b1.readable = b.readable.drop len ∧ b1.ReadableBytes = b.ReadableBytes - len := by
  rw [Retrieve_eq b len hv hlen] at h
  injection h with h
  by_cases hl : len = b.ReadableBytes
  · simp only [hl, if_true] at h
    subst h
    have : b.readable.drop len = [] := by
      apply List.drop_of_length_le; rw [readable_length]; omega
    rw [this, hl]
    simp [readable, ReadableBytes]
  · simp only [hl, if_false] at h
    have hlt : len < b.ReadableBytes := by omega
    have hR := (readPos_add_mod b len hv hlen).2 hlt
    have hR' : b1.ReadableBytes = b.ReadableBytes - len := by
      subst h; simpa [ReadableBytes, size] using hR
    refine ⟨?_, hR'⟩
    apply List.ext_getElem?
    intro i
    unfold readable
    rw [hR']
    subst h
    simp only [List.getElem?_drop, List.getElem?_map, size]
    by_cases hi : i < b.ReadableBytes - len
    · rw [List.getElem?_range hi, List.getElem?_range (by omega)]
      simp [Nat.add_assoc]
    · rw [List.getElem?_eq_none (by simp; omega), List.getElem?_eq_none (by simp; omega)]
      simp

end Buffer
end Weberver

/-! ## MakeSpace_ -/

namespace Weberver
namespace Buffer

theorem gather_length (b : Buffer) (h : b.Valid) : b.gather.length = b.ReadableBytes := by
  rw [← readable_eq_gather b h, readable_length]

theorem readable_prefix (g rest : List Byte) (h : 0 < rest.length) :
    (Buffer.mk (g ++ rest) 0 g.length).Valid ∧ (Buffer.mk (g ++ rest) 0 g.length).readable = g := by
  have hv : (Buffer.mk (g ++ rest) 0 g.length).Valid := by
    simp [Valid, size]; omega
  refine ⟨hv, ?_⟩
  rw [readable_eq_gather _ hv]
  simp [gather]

theorem copyReadable_eq (b : Buffer) (dst : List Byte) (hv : b.Valid) :
    b.copyReadable dst = b.gather ++ dst.drop b.ReadableBytes := by
  obtain ⟨h0, hr, hw⟩ := hv
  unfold copyReadable gather ReadableBytes copyInto slice
  simp only [size] at *
  by_cases hrw : b.readPos_ ≤ b.writePos_
  · simp only [ge_iff_le, hrw, if_true, List.take_zero, List.nil_append, Nat.zero_add,
      List.length_take, List.length_drop]
    congr 2; omega
  · have hR : b.ReadableBytes = b.buffer_.length - b.readPos_ + b.writePos_ := by
      simp [ReadableBytes, size, hrw]
    have e1 : List.take (b.buffer_.length - b.readPos_) (List.drop b.readPos_ b.buffer_)
        = List.drop b.readPos_ b.buffer_ := List.take_of_length_le (by simp)
    have e3 : b.writePos_ ⊓ b.buffer_.length = b.writePos_ := by omega
    have hS : (List.drop b.readPos_ b.buffer_).length = b.buffer_.length - b.readPos_ := by simp
    simp only [ge_iff_le, hrw, if_false, List.take_zero, List.nil_append, Nat.zero_add,
      List.length_take, List.length_drop, Nat.sub_zero, List.drop_zero, e1, Nat.min_self, e3]
    generalize List.drop b.readPos_ b.buffer_ = S at hS ⊢
    rw [List.take_left' hS, List.drop_append_eq_append_drop,
      List.drop_of_length_le (by rw [hS]; omega), hS, List.nil_append, List.drop_drop]
    congr 2
    omega

theorem MakeSpace_eq (b : Buffer) (len : Nat) (hv : b.Valid) :
    b.MakeSpace_ len =
      { buffer_ := b.readable ++
          (if b.WritableBytes + b.PrependableBytes < len + 1
            then List.replicate ((b.size + len) * 2 - b.ReadableBytes) 0
            else b.buffer_.drop b.ReadableBytes),
        readPos_ := 0, writePos_ := b.readable.length } := by
  have hg := gather_length b hv
  have he := readable_eq_gather b hv
  have hle := readable_le b hv
  unfold MakeSpace_
  by_cases hc : b.WritableBytes + b.PrependableBytes < len + 1
  · simp only [hc, if_true]
    rw [copyReadable_eq b _ hv]
    simp [he, hg]
  · simp only [hc, if_false]
    rw [copyReadable_eq b _ hv]
    simp [he, hg, copyInto]

theorem MakeSpace_spec (b : Buffer) (len : Nat) (hv : b.Valid) :
    (b.MakeSpace_ len).Valid ∧ (b.MakeSpace_ len).readable = b.readable ∧
    (b.MakeSpace_ len).readPos_ = 0 ∧ (b.MakeSpace_ len).writePos_ = b.ReadableBytes ∧
    (b.MakeSpace_ len).ReadableBytes = b.ReadableBytes ∧
    (b.MakeSpace_ len).size =
      (if b.WritableBytes + b.PrependableBytes < len + 1 then (b.size + len) * 2 else b.size) := by
  have hle := readable_le b hv
  have hpos : 0 < (if b.WritableBytes + b.PrependableBytes < len + 1
            then List.replicate ((b.size + len) * 2 - b.ReadableBytes) 0
            else b.buffer_.drop b.ReadableBytes).length := by
    have := hv.1
    unfold size at *
    split <;> simp <;> omega
  have hp := readable_prefix b.readable _ hpos
  rw [← MakeSpace_eq b len hv] at hp
  refine ⟨hp.1, hp.2, ?_, ?_, ?_, ?_⟩
  · rw [MakeSpace_eq b len hv]
  · rw [MakeSpace_eq b len hv]; simp [readable_length]
  · rw [← readable_length, hp.2, readable_length]
  · rw [MakeSpace_eq b len hv]
    have := hv.1
    simp only [size, List.length_append, readable_length] at *
    split <;> simp <;> omega

end Buffer
end Weberver

/-! ## Append -/

namespace Weberver
namespace Buffer

theorem HasWritten_eq (b : Buffer) (len : Nat) (h : len ≤ b.WritableBytes) :
    b.HasWritten len = some { b with writePos_ := (b.writePos_ + len) % b.size } := by
  simp [HasWritten, h]

/-- The copy and cursor update of `Append`, no wrap: the source fits between
`writePos_` and the end of storage. -/
theorem append_nowrap (buf : List Byte) (r w : Nat) (str : List Byte)
    (hv : (Buffer.mk buf r w).Valid) (hlen : str.length ≤ (Buffer.mk buf r w).WritableBytes)
    (hfit : str.length ≤ buf.length - w) :
    (Buffer.mk (copyInto buf w str) r ((w + str.length) % buf.length)).gather =
      (Buffer.mk buf r w).gather ++ str := by
  obtain ⟨h0, hr, hw⟩ := hv
  simp only [size, WritableBytes, Valid] at *
  have e1 : w ⊓ buf.length = w := by omega
  rcases mod_small_or_wrap (w + str.length) buf.length (by omega) with ⟨h1, h2⟩ | ⟨h1, h2⟩
  · rw [h2]
    unfold gather copyInto
    by_cases hrw : r ≤ w
    · have e2 : (w - r) ⊓ (buf.length - r) = w - r := by omega
      simp only [hrw, if_true, show r ≤ w + str.length from by omega]
      apply List.ext_getElem?
      intro i
      simp only [List.getElem?_append, List.getElem?_take, List.getElem?_drop, List.length_append,
        List.length_take, List.length_drop, e1, e2]
      split_ifs <;> first | rfl | (exfalso; omega) | (congr 1; omega) | (symm; apply List.getElem?_eq_none; omega)
    · have e3 : ¬ r ≤ w + str.length := by rw [if_neg (by omega)] at hlen; omega
      simp only [hrw, if_false, e3]
      apply List.ext_getElem?
      intro i
      simp only [List.getElem?_append, List.getElem?_take, List.getElem?_drop, List.length_append,
        List.length_take, List.length_drop, e1]
      split_ifs <;> first | rfl | (exfalso; omega) | (congr 1; omega) | (symm; apply List.getElem?_eq_none; omega)
  · rw [h2]
    have e4 : w + str.length - buf.length = 0 := by omega
    have e6 : r ≤ w := by
      by_contra hh; rw [if_neg (by omega)] at hlen; omega
    have e5 : 0 < r := by rw [if_pos (by omega)] at hlen; omega
    unfold gather copyInto
    simp only [e4, e6, if_true, show ¬ r ≤ 0 from by omega, if_false]
    have e2 : (w - r) ⊓ (buf.length - r) = w - r := by omega
    apply List.ext_getElem?
    intro i
    simp only [List.getElem?_append, List.getElem?_take, List.getElem?_drop, List.length_append,
        List.length_take, List.length_drop, e1, e2]
    split_ifs <;> first | rfl | (exfalso; omega) | (congr 1; omega) | (symm; apply List.getElem?_eq_none; omega)

/-- The copy and cursor update of `Append`, wrap: the source is split at the
end of storage and its tail is copied to offset 0. -/
theorem append_wrap (buf : List Byte) (r w : Nat) (str : List Byte)
    (hv : (Buffer.mk buf r w).Valid) (hlen : str.length ≤ (Buffer.mk buf r w).WritableBytes)
    (hfit : buf.length - w < str.length) :
    (Buffer.mk (copyInto (copyInto buf w (str.take (buf.length - w))) 0
        (str.drop (buf.length - w))) r ((w + str.length) % buf.length)).gather =
      (Buffer.mk buf r w).gather ++ str := by
  obtain ⟨h0, hr, hw⟩ := hv
  simp only [size, WritableBytes, Valid] at *
  have e6 : r ≤ w := by
    by_contra hh; rw [if_neg (by omega)] at hlen; omega
  rw [if_pos (by omega)] at hlen
  rcases mod_small_or_wrap (w + str.length) buf.length (by omega) with ⟨h1, h2⟩ | ⟨h1, h2⟩
  · omega
  · rw [h2]
    obtain ⟨f, hf⟩ : ∃ f, f = buf.length - w := ⟨_, rfl⟩
    obtain ⟨w', hw'⟩ : ∃ w', w' = w + str.length - buf.length := ⟨_, rfl⟩
    rw [← hf, ← hw']
    have hb1 : copyInto buf w (str.take f) = buf.take w ++ str.take f := by
      unfold copyInto
      rw [List.drop_of_length_le (by simp; omega)]
      simp
    have hb2 : copyInto (buf.take w ++ str.take f) 0 (str.drop f) =
        str.drop f ++ ((buf.take w).drop w' ++ str.take f) := by
      unfold copyInto
      simp only [List.take_zero, List.nil_append, Nat.zero_add, List.length_drop]
      rw [List.drop_append_of_le_length (by simp; omega)]
      congr 3
      omega
    rw [hb1, hb2]
    unfold gather
    simp only [e6, if_true, show ¬ r ≤ w' from by omega, if_false]
    have e1 : w ⊓ buf.length = w := by omega
    have e2 : (w - r) ⊓ (buf.length - r) = w - r := by omega
    have e3 : f ⊓ str.length = f := by omega
    apply List.ext_getElem?
    intro i
    simp only [List.getElem?_append, List.getElem?_take, List.getElem?_drop, List.length_append,
        List.length_take, List.length_drop, e1, e2, e3]
    split_ifs <;> first | rfl | (exfalso; omega) | (congr 1; omega) | (symm; apply List.getElem?_eq_none; omega)

end Buffer
end Weberver

/-! ## EnsureWriteable and Append -/

namespace Weberver
namespace Buffer

theorem MakeSpace_writable (b : Buffer) (len : Nat) (hv : b.Valid) :
    (b.MakeSpace_ len).WritableBytes =
      (if b.WritableBytes + b.PrependableBytes < len + 1
        then (b.size + len) * 2 - 1 - b.ReadableBytes else b.WritableBytes) := by
  obtain ⟨hv', _, _, _, hR, hs⟩ := MakeSpace_spec b len hv
  have h1 := readable_add_writable _ hv'
  have h2 := readable_add_writable b hv
  have h3 := readable_le b hv
  rw [hR, hs] at h1
  have hp : 0 < b.size := hv.1
  by_cases hc : b.WritableBytes + b.PrependableBytes < len + 1
  · simp only [hc, if_true] at h1 ⊢; omega
  · simp only [hc, if_false] at h1 ⊢; omega

theorem EnsureWriteable_eq_none_iff (b : Buffer) (len : Nat) (hv : b.Valid) :
    b.EnsureWriteable len = none ↔
      (b.WritableBytes < len ∧ len + 1 ≤ b.WritableBytes + b.PrependableBytes) := by
  have hw := MakeSpace_writable b len hv
  have h3 := readable_le b hv
  unfold EnsureWriteable
  by_cases h : b.WritableBytes < len
  · simp only [h, if_true, true_and]
    rw [hw]
    by_cases hc : b.WritableBytes + b.PrependableBytes < len + 1
    · simp only [hc, if_true]
      rw [if_pos (by omega)]
      simp; omega
    · simp only [hc, if_false]
      rw [if_neg (by omega)]
      simp; omega
  · simp only [h, if_false, false_and, iff_false]
    rw [if_pos (by omega)]
    simp

theorem EnsureWriteable_some (b b1 : Buffer) (len : Nat) (hv : b.Valid)
    (h : b.EnsureWriteable len = some b1) :
    b1.Valid ∧ b1.readable = b.readable ∧ len ≤ b1.WritableBytes ∧ b.size ≤ b1.size ∧
    b1.ReadableBytes = b.ReadableBytes ∧
    (len ≤ b.WritableBytes → b1 = b) ∧ (b.WritableBytes < len → b1 = b.MakeSpace_ len) := by
  obtain ⟨hv', hrd, _, _, hR, hs⟩ := MakeSpace_spec b len hv
  unfold EnsureWriteable at h
  by_cases hc : b.WritableBytes < len
  · simp only [hc, if_true] at h
    split at h
    · injection h with h
      subst h
      refine ⟨hv', hrd, by assumption, ?_, hR, fun _ => by omega, fun _ => rfl⟩
      rw [hs]; split <;> omega
    · cases h
  · simp only [hc, if_false] at h
    split at h
    · injection h with h
      subst h
      exact ⟨hv, rfl, by omega, le_refl _, rfl, fun _ => rfl, fun _ => by omega⟩
    · cases h

theorem Append_of_ensure (b b1 : Buffer) (str : List Byte) (hv : b.Valid)
    (h : b.EnsureWriteable str.length = some b1) :
    ∃ b2, b.Append str = some b2 ∧ b2.Valid ∧ b2.readable = b.readable ++ str ∧
      b2.readPos_ = b1.readPos_ ∧ b2.size = b1.size ∧
      b2.writePos_ = (b1.writePos_ + str.length) % b1.size := by
  obtain ⟨hv1, hrd, hlen, _, _, _, _⟩ := EnsureWriteable_some b b1 str.length hv h
  unfold Append
  rw [h]
  simp only
  obtain ⟨buf, r, w⟩ := b1
  have hv1' := hv1
  obtain ⟨h0, hr, hw⟩ := hv1
  simp only [size] at *
  by_cases hfit : str.length ≤ buf.length - w
  · have hm : min str.length (buf.length - w) = str.length := by omega
    simp only [hm, lt_irrefl, if_false, List.take_length]
    have hcl := copyInto_length buf w str (by omega)
    rw [HasWritten_eq _ _ (by simpa [WritableBytes, size, hcl] using hlen)]
    have hv2 : (Buffer.mk (copyInto buf w str) r ((w + str.length) % buf.length)).Valid := by
      simp only [Valid, size, hcl]; exact ⟨h0, hr, Nat.mod_lt _ h0⟩
    refine ⟨_, by simp [size, hcl], hv2, ?_, rfl, by simp [hcl], by simp [hcl]⟩
    rw [readable_eq_gather _ hv2, ← hrd, readable_eq_gather _ hv1']
    exact append_nowrap buf r w str hv1' hlen hfit
  · have hm : min str.length (buf.length - w) = buf.length - w := by omega
    simp only [hm, show buf.length - w < str.length from by omega, if_true]
    have hlen' : str.length ≤ buf.length - 1 := by
      have := readable_add_writable _ hv1'; simp only [size] at this; omega
    have hc1 := copyInto_length buf w (str.take (buf.length - w)) (by simp; omega)
    have hcl := copyInto_length (copyInto buf w (str.take (buf.length - w))) 0
      (str.drop (buf.length - w)) (by simp [hc1]; omega)
    rw [hc1] at hcl
    rw [HasWritten_eq _ _ (by simpa [WritableBytes, size, hcl] using hlen)]
    have hv2 : (Buffer.mk (copyInto (copyInto buf w (str.take (buf.length - w))) 0
        (str.drop (buf.length - w))) r ((w + str.length) % buf.length)).Valid := by
      simp only [Valid, size, hcl]; exact ⟨h0, hr, Nat.mod_lt _ h0⟩
    refine ⟨_, by simp [size, hcl], hv2, ?_, rfl, by simp [hcl], by simp [hcl]⟩
    rw [readable_eq_gather _ hv2, ← hrd, readable_eq_gather _ hv1']
    exact append_wrap buf r w str hv1' hlen (by omega)

theorem Append_eq_none_iff (b : Buffer) (str : List Byte) (hv : b.Valid) :
    b.Append str = none ↔ b.EnsureWriteable str.length = none := by
  constructor
  · intro h
    cases he : b.EnsureWriteable str.length with
    | none => rfl
    | some b1 =>
      obtain ⟨b2, h2, _⟩ := Append_of_ensure b b1 str hv he
      rw [h] at h2; cases h2
  · intro h
    unfold Append; rw [h]

end Buffer
end Weberver

/-! ## Reachable states -/

namespace Weberver
namespace Buffer

theorem init_valid (n : Nat) (h : 0 < n) : (Buffer.init n).Valid := by
  simp [Valid, size, Buffer.init, h]

theorem HasWritten_valid (b b1 : Buffer) (len : Nat) (hv : b.Valid)
    (h : b.HasWritten len = some b1) : b1.Valid := by
  unfold HasWritten at h
  split at h
  · injection h with h
    subst h
    exact ⟨hv.1, hv.2.1, Nat.mod_lt _ hv.1⟩
  · cases h

theorem RetrieveUntil_valid (b b1 : Buffer) (end_ : Nat) (hv : b.Valid)
    (h : b.RetrieveUntil end_ = some b1) : b1.Valid := by
  unfold RetrieveUntil at h
  split at h
  · exact (Retrieve_valid b b1 _ hv h).1
  · exact (Retrieve_valid b b1 _ hv h).1

theorem RetrieveAll_valid (b : Buffer) (hv : b.Valid) : b.RetrieveAll.Valid :=
  ⟨hv.1, hv.1, hv.1⟩

theorem Append_valid (b b1 : Buffer) (str : List Byte) (hv : b.Valid)
    (h : b.Append str = some b1) : b1.Valid := by
  cases he : b.EnsureWriteable str.length with
  | none => rw [(Append_eq_none_iff b str hv).2 he] at h; cases h
  | some b0 =>
    obtain ⟨b2, h2, hv2, _⟩ := Append_of_ensure b b0 str hv he
    rw [h] at h2; injection h2 with h2; subst h2; exact hv2

theorem Reachable_valid (b : Buffer) (h : Reachable b) : b.Valid := by
  induction h with
  | init n h => exact init_valid n h
  | append b b1 str _ h ih => exact Append_valid b b1 str ih h
  | retrieve b b1 len _ h ih => exact (Retrieve_valid b b1 len ih h).1
  | retrieveUntil b b1 e _ h ih => exact RetrieveUntil_valid b b1 e ih h
  | retrieveAll b _ ih => exact RetrieveAll_valid b ih
  | retrieveAllToStr b _ ih => exact RetrieveAll_valid b ih
  | ensureWriteable b b1 len _ h ih => exact (EnsureWriteable_some b b1 len ih h).1
  | hasWritten b b1 len _ h ih => exact HasWritten_valid b b1 len ih h
  | store b bytes _ h ih =>
    obtain ⟨h0, hr, hw⟩ := ih
    simp only [Valid, size] at *
    rw [h]; exact ⟨h0, hr, hw⟩

end Buffer

theorem afterRetrieve4_reachable : Buffer.Reachable afterRetrieve4 :=
  Buffer.Reachable.retrieve afterAppend10 _ 4
    (Buffer.Reachable.append (Buffer.init 32) _ digits (Buffer.Reachable.init 32 (by decide))
      (by decide))
    (by decide)

theorem smallBuffer_reachable : Buffer.Reachable smallBuffer :=
  Buffer.Reachable.retrieve
    { buffer_ := [1, 2, 3, 4, 0, 0, 0, 0], readPos_ := 0, writePos_ := 4 } _ 2
    (Buffer.Reachable.append (Buffer.init 8) _ [1, 2, 3, 4] (Buffer.Reachable.init 8 (by decide))
      (by decide))
    (by decide)

/-! ## C1 - C3: the byte accounting and `EnsureWriteable` -/

/-- C1, evaluated where the code departs from it.  On a fresh buffer of capacity
32, `Append` of the ten bytes of "0123456789" and `Retrieve(4)` complete (4 is
at most the 10 readable bytes) and leave `readPos_ = 4`, `writePos_ = 10`.  The
following `Append` of 26 bytes does not complete: 25 bytes are writable,
`MakeSpace_` takes its compaction branch, which leaves 25 bytes writable, and the
assertion at the end of `EnsureWriteable` trips. -/
theorem C1_append_after_retrieve_trips_assertion :
    (Buffer.init 32).runCalls [.append digits, .retrieve 4] = some afterRetrieve4 ∧
    (Buffer.init 32).Append digits = some afterAppend10 ∧
    afterAppend10.ReadableBytes = 10 ∧
    afterAppend10.Retrieve 4 = some afterRetrieve4 ∧
    afterRetrieve4.ReadableBytes = 6 ∧
    afterRetrieve4.WritableBytes = 25 ∧
    afterRetrieve4.Append (List.replicate 26 120) = none ∧
    (Buffer.init 32).runCalls
      [.append digits, .retrieve 4, .append (List.replicate 26 120)] = none := by
  refine ⟨by decide, by decide, by decide, by decide, by decide, by decide, by decide, by decide⟩

/-- C2 as stated fails: the state reached from a fresh buffer of capacity 32 by
`Append` of ten bytes and `Retrieve(4)` has 25 writable, 6 readable and 4
prependable bytes, which add up to 35 and not to `buffer_.size() - 1 = 31`. -/
theorem C2_three_term_sum_counterexample :
    Buffer.Reachable afterRetrieve4 ∧
    afterRetrieve4.WritableBytes + afterRetrieve4.ReadableBytes
      + afterRetrieve4.PrependableBytes = 35 ∧
    afterRetrieve4.size - 1 = 31 ∧
    afterRetrieve4.WritableBytes + afterRetrieve4.ReadableBytes
      + afterRetrieve4.PrependableBytes ≠ afterRetrieve4.size - 1 :=
  ⟨afterRetrieve4_reachable, by decide, by decide, by decide⟩

/-- C2, amended: in every reachable state the writable and the readable bytes
add up to `buffer_.size() - 1`; the prependable bytes are `readPos_` more, so
the three-term sum is `buffer_.size() - 1 + readPos_`. -/
theorem C2_writable_add_readable (b : Buffer) (h : Buffer.Reachable b) :
    b.WritableBytes + b.ReadableBytes = b.size - 1 ∧
    b.WritableBytes + b.ReadableBytes + b.PrependableBytes = b.size - 1 + b.readPos_ := by
  have hv := Buffer.Reachable_valid b h
  have := Buffer.readable_add_writable b hv
  simp only [Buffer.PrependableBytes]
  omega

/-- C2, amended, at the state after `Append` of ten bytes and `Retrieve(4)`. -/
theorem C2_writable_add_readable_witness :
    Buffer.Reachable afterRetrieve4 ∧
    (afterRetrieve4.WritableBytes + afterRetrieve4.ReadableBytes = afterRetrieve4.size - 1 ∧
     afterRetrieve4.WritableBytes + afterRetrieve4.ReadableBytes
       + afterRetrieve4.PrependableBytes = afterRetrieve4.size - 1 + afterRetrieve4.readPos_) :=
  ⟨afterRetrieve4_reachable, C2_writable_add_readable afterRetrieve4 afterRetrieve4_reachable⟩

/-- C3, evaluated where the code departs from it.  The buffer of capacity 8 with
`readPos_ = 2`, `writePos_ = 4` is valid and has 5 writable bytes.
`EnsureWriteable(6)` calls `MakeSpace_(6)`; writable plus prependable is
`7 >= 6 + 1`, so the compaction branch runs: the size stays 8, the two readable
bytes move to offset 0, and 5 bytes are writable as before.  The assertion
`WritableBytes() >= 6` at the end of `EnsureWriteable` trips. -/
theorem C3_compaction_trips_assertion :
    smallBuffer.Valid ∧
    smallBuffer.WritableBytes = 5 ∧
    smallBuffer.WritableBytes + smallBuffer.PrependableBytes = 7 ∧
    smallBuffer.MakeSpace_ 6 =
      { buffer_ := [3, 4, 3, 4, 0, 0, 0, 0], readPos_ := 0, writePos_ := 2 } ∧
    (smallBuffer.MakeSpace_ 6).WritableBytes = 5 ∧
    smallBuffer.EnsureWriteable 6 = none := by
  refine ⟨by decide, by decide, by decide, by decide, by decide, by decide⟩

end Weberver

/-! ## C4 - C7: growth round trip, draining, `MakeSpace_`, `Retrieve` -/

namespace Weberver
namespace Buffer

theorem Append_readPos_zero (b : Buffer) (str : List Byte) (hv : b.Valid) (hr : b.readPos_ = 0) :
    ∃ b2, b.Append str = some b2 ∧ b2.Valid ∧ b2.readPos_ = 0 ∧
      b2.readable = b.readable ++ str := by
  cases he : b.EnsureWriteable str.length with
  | none =>
    have := (EnsureWriteable_eq_none_iff b str.length hv).1 he
    simp only [PrependableBytes, hr] at this
    omega
  | some b1 =>
    obtain ⟨b2, h2, hv2, hrd, hr2, _⟩ := Append_of_ensure b b1 str hv he
    obtain ⟨_, _, _, _, _, hsame, hmk⟩ := EnsureWriteable_some b b1 str.length hv he
    refine ⟨b2, h2, hv2, ?_, hrd⟩
    rw [hr2]
    by_cases hc : b.WritableBytes < str.length
    · rw [hmk hc]; exact (MakeSpace_spec b str.length hv).2.2.1
    · rw [hsame (by omega)]; exact hr

theorem appendAll_readPos_zero (strs : List (List Byte)) :
    ∀ b : Buffer, b.Valid → b.readPos_ = 0 →
      ∃ b2, b.appendAll strs = some b2 ∧ b2.Valid ∧ b2.readable = b.readable ++ strs.flatten := by
  induction strs with
  | nil => intro b hv _; exact ⟨b, rfl, hv, by simp⟩
  | cons str rest ih =>
    intro b hv hr
    obtain ⟨b1, h1, hv1, hr1, hrd1⟩ := Append_readPos_zero b str hv hr
    obtain ⟨b2, h2, hv2, hrd2⟩ := ih b1 hv1 hr1
    refine ⟨b2, ?_, hv2, ?_⟩
    · simp only [appendAll, h1]; exact h2
    · rw [hrd2, hrd1]; simp

theorem init_readable (n : Nat) : (Buffer.init n).readable = [] := by
  simp [readable, ReadableBytes, Buffer.init]

end Buffer

/-- C4: whatever byte strings are appended one after another to a fresh buffer
of positive capacity, every `Append` completes, and `RetrieveAllToStr` then
returns their concatenation, in order. -/
theorem C4_growth_round_trip (n : Nat) (hn : 0 < n) (strs : List (List Byte)) :
    ∃ b, (Buffer.init n).appendAll strs = some b ∧ b.RetrieveAllToStr.1 = strs.flatten := by
  obtain ⟨b, h, hv, hrd⟩ :=
    Buffer.appendAll_readPos_zero strs (Buffer.init n) (Buffer.init_valid n hn) rfl
  refine ⟨b, h, ?_⟩
  rw [Buffer.RetrieveAllToStr_fst b hv, ← Buffer.readable_eq_gather b hv, hrd,
    Buffer.init_readable]
  simp

/-- C4 on a buffer of capacity 2 and three strings, which force two growths. -/
theorem C4_growth_round_trip_witness :
    0 < 2 ∧ ∃ b, (Buffer.init 2).appendAll [[1, 2, 3], [4, 5, 6, 7, 8, 9, 10, 11], [12]] = some b ∧
      b.RetrieveAllToStr.1 = [[1, 2, 3], [4, 5, 6, 7, 8, 9, 10, 11], [12]].flatten :=
  ⟨by decide, C4_growth_round_trip 2 (by decide) _⟩

/-- C5: in a valid state `RetrieveAllToStr` returns the readable bytes, in
order, `ReadableBytes()` of them; when the region wraps they are the bytes from
`readPos_` to the end of storage followed by those from offset 0 to `writePos_`;
afterwards both cursors are 0 and nothing is readable. -/
theorem C5_RetrieveAllToStr (b : Buffer) (hv : b.Valid) :
    b.RetrieveAllToStr.1 = b.readable ∧
    b.RetrieveAllToStr.1.length = b.ReadableBytes ∧
    (b.writePos_ < b.readPos_ →
      b.RetrieveAllToStr.1 = b.buffer_.drop b.readPos_ ++ b.buffer_.take b.writePos_) ∧
    b.RetrieveAllToStr.2.readPos_ = 0 ∧ b.RetrieveAllToStr.2.writePos_ = 0 ∧
    b.RetrieveAllToStr.2.ReadableBytes = 0 ∧
    b.RetrieveAllToStr.2.buffer_ = b.buffer_ := by
  have h1 : b.RetrieveAllToStr.1 = b.readable := by
    rw [Buffer.RetrieveAllToStr_fst b hv, Buffer.readable_eq_gather b hv]
  refine ⟨h1, by rw [h1, Buffer.readable_length], ?_, rfl, rfl, rfl, rfl⟩
  intro hlt
  rw [Buffer.RetrieveAllToStr_fst b hv]
  simp [Buffer.gather, show ¬ b.readPos_ ≤ b.writePos_ from by omega]

/-- C5 on a state whose readable region wraps. -/
theorem C5_RetrieveAllToStr_witness :
    wrappedBuffer.Valid ∧
    wrappedBuffer.RetrieveAllToStr.1 =
      wrappedBuffer.readable :=
  ⟨by decide, (C5_RetrieveAllToStr wrappedBuffer (by decide)).1⟩

/-- C6: in a valid state, when `EnsureWriteable(n)` calls `MakeSpace_(n)`
(fewer than `n` bytes are writable), the call to `MakeSpace_` keeps the readable
bytes and their number, in its growth branch and in its compaction branch, and
leaves `readPos_ == 0` and `writePos_ == ReadableBytes()`; when `MakeSpace_` is
not called, `EnsureWriteable` returns with the state untouched.  Whenever
`EnsureWriteable` returns, the readable bytes are as before. -/
theorem C6_MakeSpace_frame (b : Buffer) (n : Nat) (hv : b.Valid) :
    (b.WritableBytes < n →
      (b.MakeSpace_ n).readable = b.readable ∧
      (b.MakeSpace_ n).ReadableBytes = b.ReadableBytes ∧
      (b.MakeSpace_ n).readPos_ = 0 ∧
      (b.MakeSpace_ n).writePos_ = (b.MakeSpace_ n).ReadableBytes ∧
      (b.MakeSpace_ n).size =
        (if b.WritableBytes + b.PrependableBytes < n + 1 then (b.size + n) * 2 else b.size)) ∧
    (¬ b.WritableBytes < n → b.EnsureWriteable n = some b) ∧
    (∀ b1, b.EnsureWriteable n = some b1 →
      b1.readable = b.readable ∧ b1.ReadableBytes = b.ReadableBytes) := by
  obtain ⟨_, hrd, hr, hw, hR, hs⟩ := Buffer.MakeSpace_spec b n hv
  refine ⟨fun _ => ⟨hrd, hR, hr, by rw [hw, hR], hs⟩, ?_, ?_⟩
  · intro hc
    unfold Buffer.EnsureWriteable
    simp only [hc, if_false]
    rw [if_pos (by omega)]
  · intro b1 h1
    obtain ⟨_, h2, _, _, h3, _⟩ := Buffer.EnsureWriteable_some b b1 n hv h1
    exact ⟨h2, h3⟩

/-- C6 on the compaction branch: capacity 8, `readPos_ = 2`, `writePos_ = 4`,
`n = 6`. -/
theorem C6_MakeSpace_frame_witness :
    smallBuffer.Valid ∧ smallBuffer.WritableBytes < 6 ∧
    (smallBuffer.MakeSpace_ 6).readable = smallBuffer.readable :=
  ⟨by decide, by decide, ((C6_MakeSpace_frame smallBuffer 6 (by decide)).1 (by decide)).1⟩

/-- C7: in a valid state `Retrieve(len)` with `len <= ReadableBytes()` completes
and leaves as readable bytes the old ones without their first `len`;
`ReadableBytes()` drops by `len`; the storage is untouched; when
`len == ReadableBytes()` both cursors are 0 afterwards, otherwise `readPos_` has
advanced by `len` modulo the capacity and `writePos_` is unchanged. -/
theorem C7_Retrieve (b : Buffer) (len : Nat) (hv : b.Valid) (hlen : len ≤ b.ReadableBytes) :
    ∃ b1, b.Retrieve len = some b1 ∧
      b1.readable = b.readable.drop len ∧
      b1.ReadableBytes = b.ReadableBytes - len ∧
      b1.buffer_ = b.buffer_ ∧
      (len = b.ReadableBytes → b1.readPos_ = 0 ∧ b1.writePos_ = 0) ∧
      (len < b.ReadableBytes →
        b1.readPos_ = (b.readPos_ + len) % b.size ∧ b1.writePos_ = b.writePos_) := by
  have he := Buffer.Retrieve_eq b len hv hlen
  refine ⟨_, he, (Buffer.Retrieve_readable b _ len hv hlen he).1,
    (Buffer.Retrieve_readable b _ len hv hlen he).2, ?_, ?_, ?_⟩
  · split <;> rfl
  · intro h; simp [h]
  · intro h; simp [show len ≠ b.ReadableBytes from by omega]

/-- C7 on a wrapped state: capacity 8, `readPos_ = 6`, `writePos_ = 2`, `len = 3`. -/
theorem C7_Retrieve_witness :
    wrappedBuffer.Valid ∧
    3 ≤ wrappedBuffer.ReadableBytes ∧
    ∃ b1, wrappedBuffer.Retrieve 3 = some b1 ∧
      b1.readable = wrappedBuffer.readable.drop 3 :=
  ⟨by decide, by decide,
    (C7_Retrieve wrappedBuffer 3 (by decide) (by decide)).imp
      fun _ h => ⟨h.1, h.2.1⟩⟩

end Weberver

/-! ## C8 - C10: descriptor I/O and `RetrieveUntil` -/

namespace Weberver
namespace Buffer

theorem segments_contiguous (b : Buffer) (hv : b.Valid) (h : b.readPos_ ≤ b.writePos_) :
    b.trailingSegment = b.readable ∧ b.leadingSegment = [] ∧
    (b.buffer_.drop b.readPos_).take b.ReadableBytes = b.readable := by
  obtain ⟨h0, hr, hw⟩ := hv
  have hl : b.readable.length ≤ b.size - b.readPos_ := by
    rw [readable_length]; unfold ReadableBytes; rw [if_pos h]; omega
  refine ⟨List.take_of_length_le hl, List.drop_of_length_le hl, ?_⟩
  rw [readable_eq_gather b ⟨h0, hr, hw⟩]
  simp [gather, ReadableBytes, h]

theorem segments_wrapped (b : Buffer) (hv : b.Valid) (h : b.writePos_ < b.readPos_) :
    b.trailingSegment = b.buffer_.drop b.readPos_ ∧
    b.leadingSegment = b.buffer_.take b.writePos_ ∧
    (b.buffer_.drop b.readPos_).take (b.size - b.readPos_) = b.buffer_.drop b.readPos_ ∧
    b.trailingSegment.length = b.size - b.readPos_ ∧
    b.leadingSegment.length = b.writePos_ := by
  obtain ⟨h0, hr, hw⟩ := hv
  have hg : b.readable = b.buffer_.drop b.readPos_ ++ b.buffer_.take b.writePos_ := by
    rw [readable_eq_gather b ⟨h0, hr, hw⟩]
    simp [gather, show ¬ b.readPos_ ≤ b.writePos_ from by omega]
  have hl : (b.buffer_.drop b.readPos_).length = b.size - b.readPos_ := by simp [size]
  have h1 : b.trailingSegment = b.buffer_.drop b.readPos_ := by
    unfold trailingSegment; rw [hg, ← hl, List.take_left']; rfl
  have h2 : b.leadingSegment = b.buffer_.take b.writePos_ := by
    unfold leadingSegment; rw [hg, ← hl, List.drop_left']; rfl
  refine ⟨h1, h2, ?_, ?_, ?_⟩
  · rw [← hl, List.take_length]
  · rw [h1, hl]
  · rw [h2]; simp only [size] at hw; simp; omega

end Buffer


end Weberver

namespace Weberver

/-- C9: in a valid state, with each `write` returning a failure or a count of
at most the bytes it was offered, `WriteFd` completes.  With nothing readable
it makes no call and returns 0.  Otherwise it offers the trailing segment of the
readable bytes, and then the leading segment exactly when the first call wrote
the whole trailing segment and the leading segment is not empty; the two
segments, in this order, are the readable bytes.  When the first call fails,
its negative result is returned, `errno` is saved and the buffer is unchanged.
Otherwise the result is the sum of the counts of the successful calls, it is
not negative, and the readable bytes afterwards are the old ones without that
many first bytes; this holds as well when the second call fails, the result
then being the count of the first call. -/
theorem C9_WriteFd (b : Buffer) (w1 w2 : SysResult) (hv : b.Valid)
    (h1 : 0 < b.ReadableBytes → w1.ret ≤ b.trailingSegment.length)
    (h2 : b.secondWrite w1 → w2.ret ≤ b.leadingSegment.length) :
    ∃ res, b.WriteFd w1 w2 = some res ∧
      b.trailingSegment ++ b.leadingSegment = b.readable ∧
      (b.ReadableBytes = 0 → res.offered = [] ∧ res.ret = 0 ∧ res.buf = b) ∧
      (0 < b.ReadableBytes →
        res.offered = (if b.secondWrite w1 then [b.trailingSegment, b.leadingSegment]
          else [b.trailingSegment]) ∧
        (w1.ret < 0 → res.ret = w1.ret ∧ res.saveErrno = some w1.errno ∧ res.buf = b) ∧
        (0 ≤ w1.ret →
          res.ret = w1.ret + (if b.secondWrite w1 ∧ 0 ≤ w2.ret then w2.ret else 0) ∧
          0 ≤ res.ret ∧
          res.buf.readable = b.readable.drop res.ret.toNat ∧
          (b.secondWrite w1 → w2.ret < 0 → res.saveErrno = some w2.errno))) := by
  have hcat : b.trailingSegment ++ b.leadingSegment = b.readable := by
    unfold Buffer.trailingSegment Buffer.leadingSegment; exact List.take_append_drop _ _
  by_cases hR : b.ReadableBytes = 0
  · refine ⟨{ ret := 0, saveErrno := none, buf := b, offered := [] }, ?_, hcat, ?_, ?_⟩
    · unfold Buffer.WriteFd; simp [hR]
    · intro _; exact ⟨rfl, rfl, rfl⟩
    · intro h; omega
  · have h1 := h1 (by omega)
    have hne : b.writePos_ ≠ b.readPos_ := by
      intro h; apply hR; simp [Buffer.ReadableBytes, h]
    by_cases hc : b.writePos_ > b.readPos_
    · -- the readable region is contiguous
      obtain ⟨ht, hl, hseg⟩ := Buffer.segments_contiguous b hv (by omega)
      have hns : ¬ b.secondWrite w1 := by
        unfold Buffer.secondWrite; rw [hl]; simp
      rw [ht, Buffer.readable_length] at h1
      by_cases hf : w1.ret < 0
      · refine ⟨WriteFdResult.mk (w1.ret) (some w1.errno) b [b.trailingSegment], ?_, hcat, fun h => absurd h hR, fun _ => ?_⟩
        · unfold Buffer.WriteFd Buffer.Peek; simp [hR, hc, hf, hseg, ht]
        · refine ⟨by simp [hns], fun _ => ⟨rfl, rfl, rfl⟩, fun h => by omega⟩
      · have hk : w1.ret.toNat ≤ b.ReadableBytes := by omega
        obtain ⟨b1, he⟩ : ∃ b1, b.Retrieve w1.ret.toNat = some b1 :=
          ⟨_, Buffer.Retrieve_eq b _ hv hk⟩
        obtain ⟨hrd, _⟩ := Buffer.Retrieve_readable b _ _ hv hk he
        refine ⟨WriteFdResult.mk (w1.ret) (none) b1 [b.trailingSegment], ?_, hcat, fun h => absurd h hR, fun _ => ?_⟩
        · unfold Buffer.WriteFd Buffer.Peek; simp only [hR, hc, hf, hseg, ht, if_false, if_true, he]
        · refine ⟨by simp [hns], fun h => absurd h hf, fun _ => ⟨by simp [hns], show (0 : Int) ≤ w1.ret from by omega, hrd, ?_⟩⟩
          intro h; exact absurd h hns
    · -- the readable region wraps
      have hlt : b.writePos_ < b.readPos_ := by omega
      obtain ⟨ht, hl, hseg, htl, hll⟩ := Buffer.segments_wrapped b hv hlt
      have hRw : b.ReadableBytes = b.size - b.readPos_ + b.writePos_ := by
        simp [Buffer.ReadableBytes, show ¬ b.writePos_ ≥ b.readPos_ from by omega]
      rw [htl] at h1
      by_cases hf : w1.ret < 0
      · have hns : ¬ b.secondWrite w1 := by
          unfold Buffer.secondWrite; rw [htl]; omega
        refine ⟨WriteFdResult.mk (w1.ret) (some w1.errno) b [b.trailingSegment], ?_, hcat, fun h => absurd h hR, fun _ => ?_⟩
        · unfold Buffer.WriteFd Buffer.Peek; simp [hR, hc, hf, hseg, ht]
        · refine ⟨by simp [hns], fun _ => ⟨rfl, rfl, rfl⟩, fun h => by omega⟩
      · have hk : w1.ret.toNat ≤ b.ReadableBytes := by omega
        obtain ⟨b1, he⟩ : ∃ b1, b.Retrieve w1.ret.toNat = some b1 :=
          ⟨_, Buffer.Retrieve_eq b _ hv hk⟩
        have he' := Buffer.Retrieve_eq b _ hv hk
        rw [he] at he'
        obtain ⟨hrd, hR1⟩ := Buffer.Retrieve_readable b _ _ hv hk he
        obtain ⟨hv1, hbuf1⟩ := Buffer.Retrieve_valid b _ _ hv he
        have hsz : b1.size = b.size := by simp [Buffer.size, hbuf1]
        by_cases hs : b.secondWrite w1
        · -- the first call wrote the whole trailing segment and a leading one exists
          obtain ⟨hs1, hs2⟩ := hs
          rw [htl] at hs1
          have hwpos : 0 < b.writePos_ := by
            rcases Nat.eq_zero_or_pos b.writePos_ with h | h
            · exfalso; apply hs2; rw [hl, h]; rfl
            · exact h
          have hlen1 : w1.ret.toNat = b.size - b.readPos_ := by omega
          have hb1 : b1 = { b with readPos_ := 0 } := by
            rw [if_neg (by omega)] at he'
            injection he' with he'
            rw [he', hlen1]
            have : b.readPos_ + (b.size - b.readPos_) = b.size := by have := hv.2.1; omega
            rw [this, Nat.mod_self]
          have hseg2 : (b1.buffer_.drop b1.Peek).take b1.writePos_ = b.leadingSegment := by
            rw [hl, hb1]; simp [Buffer.Peek]
          have hw2 := h2 ⟨by rw [htl]; exact hs1, hs2⟩
          rw [hll] at hw2
          have hR1' : b1.ReadableBytes = b.writePos_ := by rw [hR1]; omega
          have he0 : b.Retrieve (b.size - b.readPos_) = some b1 := by rw [← hlen1]; exact he
          by_cases hf2 : w2.ret < 0
          · refine ⟨WriteFdResult.mk w1.ret (some w2.errno) b1 [b.trailingSegment, b.leadingSegment],
              ?_, hcat, fun h => absurd h hR, fun _ => ?_⟩
            · unfold Buffer.WriteFd
              simp only [hR, hc, hf, if_false, hlen1, he0, Buffer.Peek, hseg, true_and]
              rw [if_pos (by rw [hb1]; exact hwpos)]
              simp only [hf2, if_true]
              rw [ht, ← hseg2]; rfl
            · refine ⟨by rw [if_pos ⟨by rw [htl]; exact hs1, hs2⟩], fun h => absurd h hf, fun _ =>
                ⟨?_, show (0 : Int) ≤ w1.ret from by omega, hrd, fun _ _ => rfl⟩⟩
              show w1.ret = w1.ret + _
              rw [if_neg (by omega)]; simp
          · have hk2 : w2.ret.toNat ≤ b1.ReadableBytes := by omega
            obtain ⟨b2, he2⟩ : ∃ b2, b1.Retrieve w2.ret.toNat = some b2 :=
              ⟨_, Buffer.Retrieve_eq b1 _ hv1 hk2⟩
            obtain ⟨hrd2, _⟩ := Buffer.Retrieve_readable b1 _ _ hv1 hk2 he2
            refine ⟨WriteFdResult.mk (w1.ret + w2.ret) none b2
              [b.trailingSegment, b.leadingSegment], ?_, hcat, fun h => absurd h hR, fun _ => ?_⟩
            · unfold Buffer.WriteFd
              simp only [hR, hc, hf, if_false, hlen1, he0, Buffer.Peek, hseg, true_and]
              rw [if_pos (by rw [hb1]; exact hwpos)]
              simp only [hf2, if_false, he2]
              rw [ht, ← hseg2]; rfl
            · refine ⟨by rw [if_pos ⟨by rw [htl]; exact hs1, hs2⟩], fun h => absurd h hf, fun _ =>
                ⟨?_, show (0 : Int) ≤ w1.ret + w2.ret from by omega, ?_, fun _ h => absurd h hf2⟩⟩
              · show w1.ret + w2.ret = w1.ret + _
                rw [if_pos ⟨⟨by rw [htl]; exact hs1, hs2⟩, by omega⟩]
              · show b2.readable = b.readable.drop (w1.ret + w2.ret).toNat
                rw [hrd2, hrd, List.drop_drop]
                congr 1; omega
        · -- no second call
          have hcond : ¬ (w1.ret.toNat = b.size - b.readPos_ ∧ b1.writePos_ > 0) := by
            rintro ⟨hc1, hc2⟩
            apply hs
            refine ⟨by rw [htl]; omega, ?_⟩
            rw [hl]
            intro hnil
            have hw0 : b.writePos_ = 0 := by
              have := congrArg List.length hnil
              have hw := hv.2.2
              simp only [Buffer.size] at hw
              rw [List.length_take, List.length_nil] at this; omega
            rw [if_pos (by omega)] at he'
            injection he' with he'
            rw [he'] at hc2
            exact absurd hc2 (by simp)
          refine ⟨WriteFdResult.mk w1.ret none b1 [b.trailingSegment],
            ?_, hcat, fun h => absurd h hR, fun _ => ?_⟩
          · unfold Buffer.WriteFd
            simp only [hR, hc, hf, if_false, he, hseg, Buffer.Peek, hcond]
            rw [ht]
          · refine ⟨by rw [if_neg hs], fun h => absurd h hf, fun _ =>
              ⟨?_, show (0 : Int) ≤ w1.ret from by omega, hrd, fun h => absurd h hs⟩⟩
            show w1.ret = w1.ret + _
            rw [if_neg (fun h => hs h.1)]; simp

/-- C9 on a wrapped state: capacity 8, `readPos_ = 6`, `writePos_ = 2`; the first
`write` takes the two trailing bytes, the second one fails. -/
theorem C9_WriteFd_witness :
    wrappedBuffer.Valid ∧
    (0 < wrappedBuffer.ReadableBytes →
      (SysResult.mk 2 0).ret ≤ wrappedBuffer.trailingSegment.length) ∧
    (wrappedBuffer.secondWrite (SysResult.mk 2 0) →
      (SysResult.mk (-1) 11).ret ≤ wrappedBuffer.leadingSegment.length) ∧
    ∃ res, wrappedBuffer.WriteFd (SysResult.mk 2 0)
        (SysResult.mk (-1) 11) = some res ∧
      wrappedBuffer.trailingSegment
        ++ wrappedBuffer.leadingSegment
        = wrappedBuffer.readable :=
  ⟨by decide, by decide, by decide,
    (C9_WriteFd wrappedBuffer (SysResult.mk 2 0) (SysResult.mk (-1) 11)
      (by decide) (by decide) (by decide)).imp fun _ h => ⟨h.1, h.2.1⟩⟩

/-- C8, evaluated where the code departs from it.  The buffer of capacity 8 with
`readPos_ = 2`, `writePos_ = 4` is valid; its contiguous writable run is 4 bytes.
A `readv` that delivers the six bytes 5, .., 10 puts four of them into the
storage and two into `extrabuff`.  `HasWritten(4)` completes and leaves
`writePos_ = 0` with one byte writable; the `Append` of the two remaining bytes
does not complete, because `MakeSpace_(2)` takes its compaction branch and the
assertion at the end of `EnsureWriteable` trips.  `ReadFd` does not return. -/
theorem C8_ReadFd_trips_assertion :
    smallBuffer.Valid ∧
    smallBuffer.contiguousWritable = 4 ∧
    Buffer.HasWritten { smallBuffer with buffer_ := [1, 2, 3, 4, 5, 6, 7, 8] } 4
      = some { buffer_ := [1, 2, 3, 4, 5, 6, 7, 8], readPos_ := 2, writePos_ := 0 } ∧
    (Buffer.mk [1, 2, 3, 4, 5, 6, 7, 8] 2 0).WritableBytes = 1 ∧
    (Buffer.mk [1, 2, 3, 4, 5, 6, 7, 8] 2 0).Append [9, 10] = none ∧
    smallBuffer.ReadFd (.data [5, 6, 7, 8, 9, 10]) = none := by
  refine ⟨by decide, by decide, by decide, by decide, by decide, by decide⟩

/-- C10: in a valid state, for a marker `k` bytes past the front of the readable
region, `k <= ReadableBytes()`, at storage offset `(readPos_ + k) % size`,
`RetrieveUntil(marker)` is `Retrieve(k)`, which completes; this covers the
marker at or after `readPos_` and the marker below `readPos_` (wrapped). -/
theorem C10_RetrieveUntil (b : Buffer) (k : Nat) (hv : b.Valid) (hk : k ≤ b.ReadableBytes) :
    b.RetrieveUntil ((b.readPos_ + k) % b.size) = b.Retrieve k ∧
    ∃ b1, b.Retrieve k = some b1 ∧ b1.readable = b.readable.drop k := by
  have hle := Buffer.readable_le b hv
  have he := Buffer.Retrieve_eq b k hv hk
  refine ⟨?_, _, he, (Buffer.Retrieve_readable b _ k hv hk he).1⟩
  obtain ⟨h0, hr, hw⟩ := hv
  unfold Buffer.RetrieveUntil Buffer.Peek
  rcases mod_small_or_wrap (b.readPos_ + k) b.size (by omega) with ⟨h1, h2⟩ | ⟨h1, h2⟩
  · rw [h2, if_pos (by omega)]
    congr 1; omega
  · rw [h2, if_neg (by omega)]
    simp only
    congr 1; omega

/-- C10 on a wrapped state: capacity 8, `readPos_ = 6`, `writePos_ = 2`, marker
three bytes past the front, at offset 1. -/
theorem C10_RetrieveUntil_witness :
    wrappedBuffer.Valid ∧
    3 ≤ wrappedBuffer.ReadableBytes ∧
    wrappedBuffer.RetrieveUntil
      ((wrappedBuffer.readPos_ + 3)
        % wrappedBuffer.size)
      = wrappedBuffer.Retrieve 3 :=
  ⟨by decide, by decide,
    (C10_RetrieveUntil wrappedBuffer 3 (by decide) (by decide)).1⟩

end Weberver

/-! ## C11: the capacity-32 scenario -/

namespace Weberver

/-- C11: a fresh buffer of capacity 32 has 31 writable bytes; `Append` of the
ten bytes "0123456789" leaves 10 readable and 21 writable; `Retrieve(4)` leaves
"456789" readable; a following `Append` of any 30 bytes completes through the
growth branch of `MakeSpace_` (the size goes from 32 to 124), and
`RetrieveAllToStr` then returns "456789" followed by those 30 bytes. -/
theorem C11_capacity_32_scenario (str : List Byte) (hlen : str.length = 30) :
    (Buffer.init 32).WritableBytes = 31 ∧
    (Buffer.init 32).Append digits = some afterAppend10 ∧
    afterAppend10.ReadableBytes = 10 ∧ afterAppend10.WritableBytes = 21 ∧
    afterAppend10.Retrieve 4 = some afterRetrieve4 ∧
    afterRetrieve4.readable = [52, 53, 54, 55, 56, 57] ∧
    (afterRetrieve4.WritableBytes < str.length ∧
      afterRetrieve4.WritableBytes + afterRetrieve4.PrependableBytes < str.length + 1) ∧
    ∃ b, afterRetrieve4.Append str = some b ∧ afterRetrieve4.size < b.size ∧ b.size = 124 ∧
      b.RetrieveAllToStr.1 = [52, 53, 54, 55, 56, 57] ++ str := by
  have hv : afterRetrieve4.Valid := by decide
  have hW : afterRetrieve4.WritableBytes = 25 := by decide
  have hP : afterRetrieve4.PrependableBytes = 4 := by decide
  have hS : afterRetrieve4.size = 32 := by decide
  obtain ⟨b1, hens⟩ : ∃ b1, afterRetrieve4.EnsureWriteable str.length = some b1 := by
    cases he : afterRetrieve4.EnsureWriteable str.length with
    | some b1 => exact ⟨b1, rfl⟩
    | none =>
      have := (Buffer.EnsureWriteable_eq_none_iff _ _ hv).1 he
      omega
  have hb1 : b1 = afterRetrieve4.MakeSpace_ str.length :=
    (Buffer.EnsureWriteable_some _ _ _ hv hens).2.2.2.2.2.2 (by omega)
  obtain ⟨b, hb, hvb, hrd, _, hsz, _⟩ :=
    Buffer.Append_of_ensure afterRetrieve4 _ str hv hens
  have hsz' : b.size = 124 := by
    rw [hsz, hb1, (Buffer.MakeSpace_spec _ _ hv).2.2.2.2.2, if_pos (by omega), hS, hlen]
  refine ⟨by decide, by decide, by decide, by decide, by decide, by decide,
    ⟨by rw [hlen]; decide, by rw [hlen]; decide⟩, b, hb, ?_, hsz', ?_⟩
  · rw [hsz', hS]; omega
  · rw [Buffer.RetrieveAllToStr_fst b hvb, ← Buffer.readable_eq_gather b hvb, hrd]
    congr 1

/-- C11 with thirty bytes `'x'`. -/
theorem C11_capacity_32_scenario_witness :
    (List.replicate 30 (120 : Byte)).length = 30 ∧
    ∃ b, afterRetrieve4.Append (List.replicate 30 120) = some b ∧ afterRetrieve4.size < b.size ∧
      b.size = 124 ∧
      b.RetrieveAllToStr.1 = [52, 53, 54, 55, 56, 57] ++ List.replicate 30 120 :=
  ⟨by decide, (C11_capacity_32_scenario (List.replicate 30 120) (by decide)).2.2.2.2.2.2.2⟩

end Weberver

/-! ## C16 - C19: the queries, the invariant, compaction, `Append(const Buffer&)` -/

namespace Weberver
namespace Buffer

theorem ReadFd_valid (b : Buffer) (r : ReadvResult) (res : ReadFdResult) (hv : b.Valid)
    (h : b.ReadFd r = some res) : res.buf.Valid ∧ b.size ≤ res.buf.size := by
  cases r with
  | error errno =>
    simp only [ReadFd] at h
    injection h with h; subst h; exact ⟨hv, le_refl _⟩
  | data bytes =>
    have hcw : b.writePos_ + b.contiguousWritable ≤ b.size := by
      obtain ⟨h0, hr, hw⟩ := hv
      unfold contiguousWritable; simp only; split <;> omega
    have hlen : (copyInto b.buffer_ b.writePos_
        ((bytes.take (b.contiguousWritable + extrabuffSize)).take b.contiguousWritable)).length
        = b.buffer_.length := by
      apply copyInto_length
      simp only [List.length_take, size] at *
      omega
    have hv0 : (Buffer.mk (copyInto b.buffer_ b.writePos_
        ((bytes.take (b.contiguousWritable + extrabuffSize)).take b.contiguousWritable))
        b.readPos_ b.writePos_).Valid := by
      obtain ⟨h0, hr, hw⟩ := hv
      simp only [Valid, size, hlen] at *
      exact ⟨h0, hr, hw⟩
    simp only [ReadFd] at h
    split at h
    · split at h
      · cases h
      · rename_i b1 hb1
        injection h with h; subst h
        have := HasWritten_valid _ _ _ hv0 hb1
        refine ⟨this, ?_⟩
        unfold HasWritten at hb1
        split at hb1
        · injection hb1 with hb1; subst hb1; simp [size, hlen]
        · cases hb1
    · split at h
      · cases h
      · rename_i b1 hb1
        have hv1 := HasWritten_valid _ _ _ hv0 hb1
        have hs1 : b1.size = b.size := by
          unfold HasWritten at hb1
          split at hb1
          · injection hb1 with hb1; subst hb1; simp [size, hlen]
          · cases hb1
        split at h
        · cases h
        · rename_i b2 hb2
          injection h with h; subst h
          refine ⟨Append_valid _ _ _ hv1 hb2, ?_⟩
          cases he : b1.EnsureWriteable
              (List.take ((bytes.take (b.contiguousWritable + extrabuffSize)).length
                - b.contiguousWritable)
                ((bytes.take (b.contiguousWritable + extrabuffSize)).drop
                  b.contiguousWritable)).length with
          | none => rw [(Append_eq_none_iff _ _ hv1).2 he] at hb2; cases hb2
          | some b0 =>
            obtain ⟨b3, h3, _, _, _, hsz, _⟩ := Append_of_ensure _ _ _ hv1 he
            rw [hb2] at h3; injection h3 with h3; subst h3
            have := (EnsureWriteable_some _ _ _ hv1 he).2.2.2.1
            show b.size ≤ b2.size
            omega

end Buffer
end Weberver

namespace Weberver
namespace Buffer

theorem Append_size (b b1 : Buffer) (str : List Byte) (hv : b.Valid)
    (h : b.Append str = some b1) : b.size ≤ b1.size := by
  cases he : b.EnsureWriteable str.length with
  | none => rw [(Append_eq_none_iff b str hv).2 he] at h; cases h
  | some b0 =>
    obtain ⟨b2, h2, _, _, _, hsz, _⟩ := Append_of_ensure b b0 str hv he
    rw [h] at h2; injection h2 with h2; subst h2
    have := (EnsureWriteable_some _ _ _ hv he).2.2.2.1
    omega

theorem WriteFd_valid (b : Buffer) (w1 w2 : SysResult) (res : WriteFdResult) (hv : b.Valid)
    (h : b.WriteFd w1 w2 = some res) : res.buf.Valid ∧ res.buf.size = b.size := by
  have key : ∀ (x : Buffer) (n : Nat) (y : Buffer), x.Valid → x.Retrieve n = some y →
      y.Valid ∧ y.size = x.size := by
    intro x n y hx hy
    obtain ⟨h1, h2⟩ := Retrieve_valid x y n hx hy
    exact ⟨h1, by simp [size, h2]⟩
  unfold WriteFd at h
  simp only at h
  split at h
  · injection h with h; subst h; exact ⟨hv, rfl⟩
  · split at h
    · split at h
      · injection h with h; subst h; exact ⟨hv, rfl⟩
      · split at h
        · cases h
        · rename_i b1 hb1
          injection h with h; subst h
          exact key _ _ _ hv hb1
    · split at h
      · injection h with h; subst h; exact ⟨hv, rfl⟩
      · split at h
        · cases h
        · rename_i b1 hb1
          obtain ⟨hv1, hs1⟩ := key _ _ _ hv hb1
          split at h
          · split at h
            · injection h with h; subst h; exact ⟨hv1, hs1⟩
            · split at h
              · cases h
              · rename_i b2 hb2
                injection h with h; subst h
                obtain ⟨hv2, hs2⟩ := key _ _ _ hv1 hb2
                exact ⟨hv2, by rw [hs2, hs1]⟩
          · injection h with h; subst h; exact ⟨hv1, hs1⟩

end Buffer

/-- C16: in a valid state no subtraction of `ReadableBytes()` or
`WritableBytes()` underflows, in either branch (the checked evaluations succeed
with the same values); `WritableBytes() == buffer_.size() - 1 - ReadableBytes()`;
both counts are at most `buffer_.size() - 1`; and `readPos_ == writePos_` exactly
when `ReadableBytes() == 0`. -/
theorem C16_queries (b : Buffer) (hv : b.Valid) :
    b.ReadableBytesChecked = some b.ReadableBytes ∧
    b.WritableBytesChecked = some b.WritableBytes ∧
    b.WritableBytes = b.size - 1 - b.ReadableBytes ∧
    b.WritableBytes + b.ReadableBytes + 1 = b.size ∧
    b.ReadableBytes ≤ b.size - 1 ∧ b.WritableBytes ≤ b.size - 1 ∧
    (b.readPos_ = b.writePos_ ↔ b.ReadableBytes = 0) := by
  have hsum := Buffer.readable_add_writable b hv
  obtain ⟨h0, hr, hw⟩ := hv
  refine ⟨?_, ?_, by omega, by omega, by omega, by omega, ?_⟩
  · unfold Buffer.ReadableBytesChecked Buffer.ReadableBytes checkedSub
    by_cases h : b.writePos_ ≥ b.readPos_
    · simp only [h, if_true]
    · simp only [h, if_false]; rw [if_pos (by omega)]; rfl
  · unfold Buffer.WritableBytesChecked Buffer.WritableBytes checkedSub
    by_cases h : b.writePos_ ≥ b.readPos_
    · simp only [h, if_true]; rw [if_pos (by omega)]
      simp only [Option.map_some', Option.some_bind]
      rw [if_pos (by omega)]
    · simp only [h, if_false]; rw [if_pos (by omega)]
      simp only [Option.some_bind]
      rw [if_pos (by omega)]
  · unfold Buffer.ReadableBytes
    split <;> omega

/-- C16 on a state whose readable region wraps. -/
theorem C16_queries_witness :
    wrappedBuffer.Valid ∧
    wrappedBuffer.ReadableBytesChecked = some wrappedBuffer.ReadableBytes ∧
    wrappedBuffer.WritableBytesChecked = some wrappedBuffer.WritableBytes ∧
    wrappedBuffer.WritableBytes = wrappedBuffer.size - 1 - wrappedBuffer.ReadableBytes :=
  ⟨by decide, (C16_queries wrappedBuffer (by decide)).1, (C16_queries wrappedBuffer (by decide)).2.1,
    (C16_queries wrappedBuffer (by decide)).2.2.1⟩

/-- C17: a buffer constructed with capacity `n > 0` is valid, and from a valid
state every operation that completes leaves `readPos_ < buffer_.size()` and
`writePos_ < buffer_.size()` and a size that is not smaller than before:
`Retrieve`, `RetrieveUntil`, `RetrieveAll`, `RetrieveAllToStr`, `HasWritten`,
`MakeSpace_`, `EnsureWriteable`, `Append`, `ReadFd` and `WriteFd`. -/
theorem C17_invariant_preserved (b : Buffer) (hv : b.Valid) :
    (∀ n, 0 < n → (Buffer.init n).Valid ∧ (Buffer.init n).size = n) ∧
    (∀ len b1, b.Retrieve len = some b1 → b1.Valid ∧ b.size ≤ b1.size) ∧
    (∀ end_ b1, b.RetrieveUntil end_ = some b1 → b1.Valid ∧ b.size ≤ b1.size) ∧
    (b.RetrieveAll.Valid ∧ b.size ≤ b.RetrieveAll.size) ∧
    (b.RetrieveAllToStr.2.Valid ∧ b.size ≤ b.RetrieveAllToStr.2.size) ∧
    (∀ len b1, b.HasWritten len = some b1 → b1.Valid ∧ b.size ≤ b1.size) ∧
    (∀ len, (b.MakeSpace_ len).Valid ∧ b.size ≤ (b.MakeSpace_ len).size) ∧
    (∀ len b1, b.EnsureWriteable len = some b1 → b1.Valid ∧ b.size ≤ b1.size) ∧
    (∀ str b1, b.Append str = some b1 → b1.Valid ∧ b.size ≤ b1.size) ∧
    (∀ r res, b.ReadFd r = some res → res.buf.Valid ∧ b.size ≤ res.buf.size) ∧
    (∀ w1 w2 res, b.WriteFd w1 w2 = some res → res.buf.Valid ∧ b.size ≤ res.buf.size) := by
  have hret : ∀ len b1, b.Retrieve len = some b1 → b1.Valid ∧ b.size ≤ b1.size := by
    intro len b1 h
    obtain ⟨h1, h2⟩ := Buffer.Retrieve_valid b b1 len hv h
    exact ⟨h1, by simp [Buffer.size, h2]⟩
  refine ⟨fun n hn => ⟨Buffer.init_valid n hn, by simp [Buffer.init, Buffer.size]⟩, hret, ?_,
    ⟨Buffer.RetrieveAll_valid b hv, le_refl _⟩, ⟨Buffer.RetrieveAll_valid b hv, le_refl _⟩,
    ?_, ?_, ?_, ?_, ?_, ?_⟩
  · intro e b1 h
    unfold Buffer.RetrieveUntil at h
    split at h <;> exact hret _ _ h
  · intro len b1 h
    refine ⟨Buffer.HasWritten_valid b b1 len hv h, ?_⟩
    unfold Buffer.HasWritten at h
    split at h
    · injection h with h; subst h; exact le_refl _
    · cases h
  · intro len
    obtain ⟨h1, _, _, _, _, hs⟩ := Buffer.MakeSpace_spec b len hv
    refine ⟨h1, ?_⟩
    rw [hs]; split <;> omega
  · intro len b1 h
    obtain ⟨h1, _, _, h2, _⟩ := Buffer.EnsureWriteable_some b b1 len hv h
    exact ⟨h1, h2⟩
  · intro str b1 h
    exact ⟨Buffer.Append_valid b b1 str hv h, Buffer.Append_size b b1 str hv h⟩
  · intro r res h
    exact Buffer.ReadFd_valid b r res hv h
  · intro w1 w2 res h
    obtain ⟨h1, h2⟩ := Buffer.WriteFd_valid b w1 w2 res hv h
    exact ⟨h1, by omega⟩

/-- C17 at the buffer of capacity 8 with `readPos_ = 2`, `writePos_ = 4`, for an
`Append` that grows the storage. -/
theorem C17_invariant_preserved_witness :
    smallBuffer.Valid ∧
    ∀ b1, smallBuffer.Append [5, 6, 7, 8, 9, 10, 11] = some b1 →
      b1.Valid ∧ smallBuffer.size ≤ b1.size :=
  ⟨by decide, (C17_invariant_preserved smallBuffer (by decide)).2.2.2.2.2.2.2.2.1 _⟩

/-- C18: in a valid state, when `MakeSpace_(len)` takes its compaction branch
(`WritableBytes() + PrependableBytes() >= len + 1`), the size, the number of
readable bytes and hence the number of writable bytes are the same after the
call as before. -/
theorem C18_compaction_keeps_writable (b : Buffer) (len : Nat) (hv : b.Valid)
    (hc : b.WritableBytes + b.PrependableBytes ≥ len + 1) :
    (b.MakeSpace_ len).size = b.size ∧
    (b.MakeSpace_ len).ReadableBytes = b.ReadableBytes ∧
    (b.MakeSpace_ len).WritableBytes = b.WritableBytes := by
  obtain ⟨_, _, _, _, hR, hs⟩ := Buffer.MakeSpace_spec b len hv
  have hw := Buffer.MakeSpace_writable b len hv
  rw [if_neg (by omega)] at hs hw
  exact ⟨hs, hR, hw⟩

/-- C18 at the buffer of capacity 8 with `readPos_ = 2`, `writePos_ = 4` and
`len = 6`: five bytes are writable before and after. -/
theorem C18_compaction_keeps_writable_witness :
    smallBuffer.Valid ∧ smallBuffer.WritableBytes + smallBuffer.PrependableBytes ≥ 6 + 1 ∧
    ((smallBuffer.MakeSpace_ 6).size = smallBuffer.size ∧
     (smallBuffer.MakeSpace_ 6).ReadableBytes = smallBuffer.ReadableBytes ∧
     (smallBuffer.MakeSpace_ 6).WritableBytes = smallBuffer.WritableBytes) :=
  ⟨by decide, by decide, C18_compaction_keeps_writable smallBuffer 6 (by decide) (by decide)⟩

/-- C19, evaluated where the code departs from it.  The source of capacity 8
with `readPos_ = 6`, `writePos_ = 2`, reached by `Append` of seven bytes,
`Retrieve(6)` and `Append` of three bytes, is valid and holds the four readable bytes
7, 8, 1, 2, wrapped.  `Append(buff)` passes `Peek()` (offset 6) and
`ReadableBytes()` (4) to `Append(const char*, size_t)`, a source range that ends
at offset 10, past the storage of 8 bytes: the last two bytes read lie outside
the source's storage, and what is appended is not the source's readable
content. -/
theorem C19_AppendBuffer_reads_past_end :
    (Buffer.init 8).runCalls
      [.append [1, 2, 3, 4, 5, 6, 7], .retrieve 6, .append [8, 1, 2]] = some wrappedBuffer ∧
    wrappedBuffer.Valid ∧ (Buffer.init 16).Valid ∧
    wrappedBuffer.readable = [7, 8, 1, 2] ∧
    wrappedBuffer.Peek = 6 ∧ wrappedBuffer.ReadableBytes = 4 ∧
    wrappedBuffer.size < wrappedBuffer.Peek + wrappedBuffer.ReadableBytes ∧
    readRange wrappedBuffer.buffer_ wrappedBuffer.Peek wrappedBuffer.ReadableBytes = none ∧
    (Buffer.init 16).AppendBuffer wrappedBuffer = none := by
  refine ⟨by decide, by decide, by decide, by decide, by decide, by decide, by decide, by decide,
    by decide⟩

end Weberver

/-! ## C20: the contiguous writable run of `ReadFd` -/

namespace Weberver
namespace Buffer

theorem isReadableOffset_iff (b : Buffer) (i : Nat) (hv : b.Valid) :
    b.isReadableOffset i ↔
      (if b.readPos_ ≤ b.writePos_ then b.readPos_ ≤ i ∧ i < b.writePos_
       else (b.readPos_ ≤ i ∧ i < b.size) ∨ i < b.writePos_) := by
  have hle := readable_le b hv
  obtain ⟨h0, hr, hw⟩ := hv
  unfold isReadableOffset
  constructor
  · rintro ⟨k, hk, hki⟩
    have hR : b.ReadableBytes = (if b.writePos_ ≥ b.readPos_ then b.writePos_ - b.readPos_
        else b.size - b.readPos_ + b.writePos_) := rfl
    rcases mod_small_or_wrap (b.readPos_ + k) b.size (by omega) with ⟨h1, h2⟩ | ⟨h1, h2⟩
    · rw [h2] at hki
      by_cases hrw : b.readPos_ ≤ b.writePos_
      · rw [if_pos hrw] at hR ⊢; omega
      · rw [if_neg hrw] at hR ⊢; omega
    · rw [h2] at hki
      by_cases hrw : b.readPos_ ≤ b.writePos_
      · rw [if_pos hrw] at hR ⊢; omega
      · rw [if_neg hrw] at hR ⊢; omega
  · intro h
    have hR : b.ReadableBytes = (if b.writePos_ ≥ b.readPos_ then b.writePos_ - b.readPos_
        else b.size - b.readPos_ + b.writePos_) := rfl
    by_cases hrw : b.readPos_ ≤ b.writePos_
    · rw [if_pos hrw] at h hR
      refine ⟨i - b.readPos_, by omega, ?_⟩
      rw [show b.readPos_ + (i - b.readPos_) = i from by omega]
      exact Nat.mod_eq_of_lt (by omega)
    · rw [if_neg hrw] at h hR
      rcases h with h | h
      · refine ⟨i - b.readPos_, by omega, ?_⟩
        rw [show b.readPos_ + (i - b.readPos_) = i from by omega]
        exact Nat.mod_eq_of_lt (by omega)
      · refine ⟨i + b.size - b.readPos_, by omega, ?_⟩
        rw [show b.readPos_ + (i + b.size - b.readPos_) = i + b.size from by omega,
          Nat.add_mod_right]
        exact Nat.mod_eq_of_lt (by omega)

theorem reservedOffset_eq (b : Buffer) (hv : b.Valid) :
    b.reservedOffset = (if b.readPos_ = 0 then b.size - 1 else b.readPos_ - 1) := by
  obtain ⟨h0, hr, hw⟩ := hv
  unfold reservedOffset
  by_cases h : b.readPos_ = 0
  · rw [if_pos h, h]; simp only [Nat.zero_add]; exact Nat.mod_eq_of_lt (by omega)
  · rw [if_neg h, show b.readPos_ + b.size - 1 = (b.readPos_ - 1) + b.size from by omega,
      Nat.add_mod_right]
    exact Nat.mod_eq_of_lt (by omega)

theorem freeRunFrom_eq (b : Buffer) :
    ∀ (fuel n pos : Nat), n ≤ fuel → (∀ i, i < n → b.isFreeOffset (pos + i)) →
      (n = fuel ∨ ¬ b.isFreeOffset (pos + n)) → b.freeRunFrom pos fuel = n := by
  intro fuel
  induction fuel with
  | zero => intro n pos hn _ _; simp [freeRunFrom]; omega
  | succ fuel ih =>
    intro n pos hn hfree hstop
    cases n with
    | zero =>
      rcases hstop with h | h
      · omega
      · simp only [Nat.add_zero] at h; simp [freeRunFrom, h]
    | succ n =>
      have h0 : b.isFreeOffset pos := by simpa using hfree 0 (by omega)
      simp only [freeRunFrom, h0, if_true]
      congr 1
      apply ih n (pos + 1) (by omega)
      · intro i hi
        have := hfree (i + 1) (by omega)
        rwa [show pos + (i + 1) = pos + 1 + i from by omega] at this
      · rcases hstop with h | h
        · left; omega
        · right
          rwa [show pos + (n + 1) = pos + 1 + n from by omega] at h

theorem isFreeOffset_from_writePos (b : Buffer) (i : Nat) (hv : b.Valid) :
    (i < b.contiguousWritable → b.isFreeOffset (b.writePos_ + i)) ∧
    (b.writePos_ + b.contiguousWritable < b.size →
      ¬ b.isFreeOffset (b.writePos_ + b.contiguousWritable)) := by
  have hro := isReadableOffset_iff b
  have hres := reservedOffset_eq b hv
  have hv' := hv
  obtain ⟨h0, hr, hw⟩ := hv
  unfold isFreeOffset
  have hW : b.WritableBytes = (if b.writePos_ ≥ b.readPos_
      then b.size - b.writePos_ + b.readPos_ - 1 else b.readPos_ - b.writePos_ - 1) := rfl
  have hC : b.contiguousWritable = (if b.writePos_ + b.WritableBytes > b.size
      then b.size - b.writePos_ else b.WritableBytes) := rfl
  constructor
  · intro hi
    rw [hro _ hv']
    by_cases hrw : b.readPos_ ≤ b.writePos_
    · rw [if_pos hrw] at hW ⊢
      by_cases h0r : b.readPos_ = 0
      · rw [if_pos h0r] at hres
        split at hC <;> omega
      · rw [if_neg h0r] at hres
        split at hC <;> omega
    · rw [if_neg hrw] at hW
      rw [if_neg hrw]
      rw [if_neg (by omega)] at hres
      split at hC <;> omega
  · intro hlt
    rw [hro _ hv']
    by_cases hrw : b.readPos_ ≤ b.writePos_
    · rw [if_pos hrw] at hW ⊢
      by_cases h0r : b.readPos_ = 0
      · rw [if_pos h0r] at hres
        split at hC <;> omega
      · rw [if_neg h0r] at hres
        split at hC <;> omega
    · rw [if_neg hrw] at hW
      rw [if_neg hrw]
      rw [if_neg (by omega)] at hres
      split at hC <;> omega

end Buffer

/-- C20: in a valid state the length `contiguous_writable` computed by `ReadFd`
is at most `WritableBytes()`, ends inside the storage
(`writePos_ + contiguous_writable <= buffer_.size()`), and is the length of the
longest run of free bytes from `writePos_`: every byte of the run is free
(neither readable nor the reserved byte), and the run stops at the end of the
storage or before a byte that is not free.  So `HasWritten(len)` with
`len <= contiguous_writable`, which covers both calls in `ReadFd`, completes,
whatever bytes `readv` has stored in the storage. -/
theorem C20_contiguous_writable (b : Buffer) (hv : b.Valid) :
    b.contiguousWritable ≤ b.WritableBytes ∧
    b.writePos_ + b.contiguousWritable ≤ b.size ∧
    b.contiguousWritable = b.freeRun ∧
    (∀ i, i < b.contiguousWritable → b.isFreeOffset (b.writePos_ + i)) ∧
    (b.writePos_ + b.contiguousWritable < b.size →
      ¬ b.isFreeOffset (b.writePos_ + b.contiguousWritable)) ∧
    (∀ len bytes, len ≤ b.contiguousWritable → bytes.length = b.size →
      ∃ b1, Buffer.HasWritten { b with buffer_ := bytes } len = some b1) := by
  have hfree := fun i => (Buffer.isFreeOffset_from_writePos b i hv).1
  have hstop := (Buffer.isFreeOffset_from_writePos b 0 hv).2
  have hle : b.contiguousWritable ≤ b.WritableBytes := by
    unfold Buffer.contiguousWritable; simp only; split <;> omega
  have hend : b.writePos_ + b.contiguousWritable ≤ b.size := by
    obtain ⟨h0, hr, hw⟩ := hv
    unfold Buffer.contiguousWritable; simp only; split <;> omega
  refine ⟨hle, hend, ?_, hfree, hstop, ?_⟩
  · symm
    apply Buffer.freeRunFrom_eq b _ _ _ (by omega) hfree
    by_cases h : b.writePos_ + b.contiguousWritable < b.size
    · exact Or.inr (hstop h)
    · left; omega
  · intro len bytes hlen hbytes
    refine ⟨_, Buffer.HasWritten_eq _ len ?_⟩
    have hW : Buffer.WritableBytes { b with buffer_ := bytes } = b.WritableBytes := by
      simp only [Buffer.WritableBytes, Buffer.size] at *
      rw [hbytes]
    omega

/-- C20 at the buffer of capacity 8 with `readPos_ = 2`, `writePos_ = 4`: the
run is the four bytes up to the end of the storage, of five writable ones. -/
theorem C20_contiguous_writable_witness :
    smallBuffer.Valid ∧ smallBuffer.contiguousWritable = 4 ∧ smallBuffer.WritableBytes = 5 ∧
    smallBuffer.contiguousWritable = smallBuffer.freeRun :=
  ⟨by decide, by decide, by decide, (C20_contiguous_writable smallBuffer (by decide)).2.2.1⟩

end Weberver

/-! ## C12 - C15: the bounded blocking deque -/

namespace Weberver
namespace BlockDeque

theorem push_back_some {T : Type} (q q1 : BlockDeque T) (item : T)
    (h : q.push_back item = some q1) :
    (q.isClose_ = true ∧ q1 = q) ∨
    (q.isClose_ = false ∧ q.deq_.length < q.capacity_ ∧
      q1 = { q with deq_ := q.deq_ ++ [item] }) := by
  unfold push_back at h
  split at h
  · cases h
  · rename_i hc
    split at h
    · rename_i hcl; injection h with h; exact Or.inl ⟨hcl, h.symm⟩
    · rename_i hcl
      injection h with h
      have hcl' : q.isClose_ = false := by simpa using hcl
      exact Or.inr ⟨hcl', by simp only [hcl', and_true] at hc; omega, h.symm⟩

theorem push_front_some {T : Type} (q q1 : BlockDeque T) (item : T)
    (h : q.push_front item = some q1) :
    (q.isClose_ = true ∧ q1 = q) ∨
    (q.isClose_ = false ∧ q.deq_.length < q.capacity_ ∧
      q1 = { q with deq_ := item :: q.deq_ }) := by
  unfold push_front at h
  split at h
  · cases h
  · rename_i hc
    split at h
    · rename_i hcl; injection h with h; exact Or.inl ⟨hcl, h.symm⟩
    · rename_i hcl
      injection h with h
      have hcl' : q.isClose_ = false := by simpa using hcl
      exact Or.inr ⟨hcl', by simp only [hcl', and_true] at hc; omega, h.symm⟩

theorem pop_some {T : Type} (q : BlockDeque T) (r : PopResult T) (h : q.pop = some r) :
    (q.isClose_ = true ∧ q.deq_ = [] ∧ r = { ret := false, item := none, q := q }) ∨
    (q.isClose_ = false ∧ ∃ x rest, q.deq_ = x :: rest ∧
      r = { ret := true, item := some x, q := { q with deq_ := rest } }) := by
  unfold pop at h
  split at h
  · split at h
    · rename_i hc
      injection h with h
      exact Or.inl ⟨hc.1, by simpa using hc.2, h.symm⟩
    · cases h
  · rename_i hc
    have hcl : q.isClose_ = false := by
      cases hq : q.isClose_ with
      | false => rfl
      | true => exact absurd (Or.inr hq) hc
    split at h
    · cases h
    · rename_i x rest hd
      injection h with h
      exact Or.inr ⟨hcl, x, rest, hd, h.symm⟩

theorem popTimeout_q {T : Type} (q : BlockDeque T) (t : Int) :
    (q.popTimeout t).q = q ∨
    (q.isClose_ = false ∧ ∃ x rest, q.deq_ = x :: rest ∧
      q.popTimeout t = { ret := true, item := some x, q := { q with deq_ := rest } }) := by
  unfold popTimeout
  split
  · exact Or.inl rfl
  · rename_i hc
    have hcl : q.isClose_ = false := by
      cases hq : q.isClose_ with
      | false => rfl
      | true => exact absurd (Or.inr hq) hc
    split
    · exact Or.inl rfl
    · rename_i x rest hd
      exact Or.inr ⟨hcl, x, rest, hd, rfl⟩

theorem Step_inv {T : Type} (q q1 : BlockDeque T) (h : Step q q1) (hi : q.Inv) : q1.Inv := by
  obtain ⟨h1, h2⟩ := hi
  cases h with
  | push_back _ item h =>
    rcases push_back_some q q1 item h with ⟨_, rfl⟩ | ⟨hcl, hlt, rfl⟩
    · exact ⟨h1, h2⟩
    · exact ⟨by simp; omega, fun hc => by simp [hcl] at hc⟩
  | push_front _ item h =>
    rcases push_front_some q q1 item h with ⟨_, rfl⟩ | ⟨hcl, hlt, rfl⟩
    · exact ⟨h1, h2⟩
    · exact ⟨by simp; omega, fun hc => by simp [hcl] at hc⟩
  | pop r h =>
    rcases pop_some q r h with ⟨_, _, rfl⟩ | ⟨hcl, x, rest, hd, rfl⟩
    · exact ⟨h1, h2⟩
    · rw [hd] at h1
      exact ⟨by simp at h1 ⊢; omega, fun hc => by simp [hcl] at hc⟩
  | popTimeout t =>
    rcases popTimeout_q q t with he | ⟨hcl, x, rest, hd, he⟩
    · rw [he]; exact ⟨h1, h2⟩
    · rw [he]; rw [hd] at h1
      exact ⟨by simp at h1 ⊢; omega, fun hc => by simp [hcl] at hc⟩
  | clear => exact ⟨by simp [clear], fun _ => rfl⟩
  | flush => exact ⟨h1, h2⟩
  | Close => exact ⟨by simp [Close], fun _ => rfl⟩

theorem Steps_inv {T : Type} (q q1 : BlockDeque T) (h : Relation.ReflTransGen Step q q1)
    (hi : q.Inv) : q1.Inv := by
  induction h with
  | refl => exact hi
  | tail _ hs ih => exact Step_inv _ _ hs ih

theorem Reachable_inv {T : Type} (q : BlockDeque T) (h : q.Reachable) :
    q.Inv ∧ 0 < q.capacity_ := by
  obtain ⟨n, q0, h0, hs⟩ := h
  unfold init at h0
  split at h0
  · rename_i hn
    injection h0 with h0
    subst h0
    refine ⟨Steps_inv _ _ hs ⟨by simp, fun hc => by simp at hc⟩, ?_⟩
    have hcap : ∀ a b : BlockDeque T, Step a b → b.capacity_ = a.capacity_ := by
      intro a b hab
      cases hab with
      | push_back _ item h =>
        rcases push_back_some a b item h with ⟨_, rfl⟩ | ⟨_, _, rfl⟩ <;> rfl
      | push_front _ item h =>
        rcases push_front_some a b item h with ⟨_, rfl⟩ | ⟨_, _, rfl⟩ <;> rfl
      | pop r h =>
        rcases pop_some a r h with ⟨_, _, rfl⟩ | ⟨_, x, rest, _, rfl⟩ <;> rfl
      | popTimeout t =>
        rcases popTimeout_q a t with he | ⟨_, x, rest, _, he⟩ <;> rw [he]
      | clear => rfl
      | flush => rfl
      | Close => rfl
    have : q.capacity_ = n := by
      induction hs with
      | refl => rfl
      | tail _ hs ih => rw [hcap _ _ hs, ih]
    omega
  · cases h0

end BlockDeque

/-- C12: in the step model every state reachable from construction with a
positive capacity through `push_back`, `push_front`, `pop`, the timed `pop`,
`clear`, `flush` and `Close` has `0 <= size() <= capacity()`. -/
theorem C12_size_le_capacity {T : Type} (q : BlockDeque T) (h : q.Reachable) :
    0 ≤ q.size ∧ q.size ≤ q.capacity :=
  ⟨Nat.zero_le _, (BlockDeque.Reachable_inv q h).1.1⟩

/-- C12 at the queue of capacity 2 after `push_back(1)` and `push_back(2)`. -/
theorem C12_size_le_capacity_witness :
    (BlockDeque.mk [1, 2] 2 false : BlockDeque Nat).Reachable ∧
    (0 ≤ (BlockDeque.mk [1, 2] 2 false : BlockDeque Nat).size ∧
      (BlockDeque.mk [1, 2] 2 false : BlockDeque Nat).size
        ≤ (BlockDeque.mk [1, 2] 2 false : BlockDeque Nat).capacity) :=
  ⟨⟨2, _, rfl, Relation.ReflTransGen.tail (Relation.ReflTransGen.single
      (BlockDeque.Step.push_back _ (BlockDeque.mk [1] 2 false) 1 rfl))
      (BlockDeque.Step.push_back _ _ 2 rfl)⟩,
   C12_size_le_capacity _ ⟨2, _, rfl, Relation.ReflTransGen.tail (Relation.ReflTransGen.single
      (BlockDeque.Step.push_back _ (BlockDeque.mk [1] 2 false) 1 rfl))
      (BlockDeque.Step.push_back _ _ 2 rfl)⟩⟩

end Weberver

namespace Weberver
namespace BlockDeque

theorem runCalls_open {T : Type} (calls : List (QCall T)) :
    ∀ (q q1 : BlockDeque T) (out : List (Bool × Option T)), q.isClose_ = false →
      q.runCalls calls = some (out, q1) →
      ∃ delivered : List T, out = delivered.map (fun x => (true, some x)) ∧
        delivered ++ q1.deq_ = q.deq_ ++ pushed calls ∧ q1.isClose_ = false ∧
        q1.capacity_ = q.capacity_ := by
  induction calls with
  | nil =>
    intro q q1 out ho h
    simp only [runCalls] at h
    injection h with h
    injection h with h1 h2
    subst h1; subst h2
    exact ⟨[], rfl, by simp [pushed], ho, rfl⟩
  | cons c rest ih =>
    intro q q1 out ho h
    cases c with
    | push_back item =>
      simp only [runCalls] at h
      split at h
      · cases h
      · rename_i q2 hq2
        rcases push_back_some q q2 item hq2 with ⟨hc, _⟩ | ⟨_, _, rfl⟩
        · rw [ho] at hc; cases hc
        · obtain ⟨d, hd1, hd2, hd3, hd4⟩ :=
            ih { q with deq_ := q.deq_ ++ [item] } q1 out ho h
          exact ⟨d, hd1, by rw [hd2]; simp [pushed], hd3, hd4⟩
    | pop =>
      simp only [runCalls] at h
      split at h
      · cases h
      · rename_i r hr
        rcases pop_some q r hr with ⟨hc, _⟩ | ⟨_, x, tl, hx, rfl⟩
        · rw [ho] at hc; cases hc
        · split at h
          · cases h
          · rename_i out2 q2 h2
            injection h with h
            injection h with h1 h3
            subst h1; subst h3
            obtain ⟨d, hd1, hd2, hd3, hd4⟩ := ih { q with deq_ := tl } q2 out2 ho h2
            refine ⟨x :: d, by simp [hd1], ?_, hd3, hd4⟩
            simp only [List.cons_append, hd2, hx, pushed]

theorem runCalls_pairs {T : Type} (items : List T) (q : BlockDeque T)
    (ho : q.isClose_ = false) (he : q.deq_ = []) (hc : 0 < q.capacity_) :
    q.runCalls (pairs items) = some (items.map (fun x => (true, some x)), q) := by
  obtain ⟨d, c, cl⟩ := q
  simp only at ho he hc
  subst ho; subst he
  induction items with
  | nil => rfl
  | cons x rest ih =>
    have hp : pairs (x :: rest) = .push_back x :: .pop :: pairs rest := by
      simp [pairs]
    have hpush : (BlockDeque.mk [] c false).push_back x = some (BlockDeque.mk [x] c false) := by
      unfold push_back
      rw [if_neg (by simp; omega)]; rfl
    have hpop : (BlockDeque.mk [x] c false).pop
        = some { ret := true, item := some x, q := BlockDeque.mk [] c false } := by
      simp [pop]
    rw [hp]
    simp only [runCalls, hpush, hpop, ih, List.map_cons]

end BlockDeque

/-- C13: on an open queue, for every sequence of `push_back` and `pop` calls in
which no call has to wait, every `pop` returns `true`, and the items delivered,
followed by the items left in the queue, are the initial contents followed by
the pushed items in push order; the queue stays open.  In particular, on an
empty open queue of positive capacity, `N` `push_back` / `pop` pairs complete
without waiting and deliver the `N` items in insertion order. -/
theorem C13_fifo {T : Type} (q q1 : BlockDeque T) (calls : List (BlockDeque.QCall T))
    (out : List (Bool × Option T)) (hopen : q.isClose_ = false)
    (hrun : q.runCalls calls = some (out, q1)) :
    (∃ delivered : List T, out = delivered.map (fun x => (true, some x)) ∧
      delivered ++ q1.deq_ = q.deq_ ++ BlockDeque.pushed calls ∧ q1.isClose_ = false) ∧
    (∀ items : List T, q.deq_ = [] → 0 < q.capacity_ →
      q.runCalls (BlockDeque.pairs items) = some (items.map (fun x => (true, some x)), q)) := by
  obtain ⟨d, h1, h2, h3, _⟩ := BlockDeque.runCalls_open calls q q1 out hopen hrun
  exact ⟨⟨d, h1, h2, h3⟩, fun items he hc => BlockDeque.runCalls_pairs items q hopen he hc⟩

/-- C13 on the queue of capacity 2: `push_back(1)`, `push_back(2)`, `pop`,
`push_back(3)`, `pop`, `pop` deliver 1, 2, 3. -/
theorem C13_fifo_witness :
    (BlockDeque.mk [] 2 false : BlockDeque Nat).isClose_ = false ∧
    (BlockDeque.mk [] 2 false : BlockDeque Nat).runCalls
        [.push_back 1, .push_back 2, .pop, .push_back 3, .pop, .pop]
      = some ([(true, some 1), (true, some 2), (true, some 3)], BlockDeque.mk [] 2 false) ∧
    ∃ delivered : List Nat,
      [(true, some 1), (true, some 2), (true, some 3)]
        = delivered.map (fun x => (true, some x)) ∧
      delivered ++ (BlockDeque.mk [] 2 false : BlockDeque Nat).deq_
        = (BlockDeque.mk [] 2 false : BlockDeque Nat).deq_
          ++ BlockDeque.pushed [.push_back 1, .push_back 2, .pop, .push_back 3, .pop, .pop] ∧
      (BlockDeque.mk [] 2 false : BlockDeque Nat).isClose_ = false :=
  ⟨rfl, rfl, (C13_fifo (BlockDeque.mk [] 2 false) (BlockDeque.mk [] 2 false)
    [.push_back 1, .push_back 2, .pop, .push_back 3, .pop, .pop] _ rfl rfl).1⟩

end Weberver

namespace Weberver
namespace BlockDeque

theorem closed_empty_fixed {T : Type} (s s1 : BlockDeque T) (hc : s.isClose_ = true)
    (he : s.deq_ = []) (h : Step s s1) : s1 = s := by
  obtain ⟨d, c, cl⟩ := s
  simp only at hc he
  subst hc; subst he
  cases h with
  | push_back _ item h =>
    rcases push_back_some _ _ item h with ⟨_, h1⟩ | ⟨h1, _⟩
    · exact h1
    · cases h1
  | push_front _ item h =>
    rcases push_front_some _ _ item h with ⟨_, h1⟩ | ⟨h1, _⟩
    · exact h1
    · cases h1
  | pop r h =>
    rcases pop_some _ r h with ⟨_, _, rfl⟩ | ⟨h1, _⟩
    · rfl
    · cases h1
  | popTimeout t =>
    rcases popTimeout_q (BlockDeque.mk ([] : List T) c true) t with he | ⟨h1, _⟩
    · exact he
    · cases h1
  | clear => rfl
  | flush => rfl
  | Close => rfl

theorem closed_empty_steps {T : Type} (s s1 : BlockDeque T) (hc : s.isClose_ = true)
    (he : s.deq_ = []) (h : Relation.ReflTransGen Step s s1) : s1 = s := by
  induction h with
  | refl => rfl
  | tail _ hs ih => subst ih; exact closed_empty_fixed _ _ hc he hs

theorem closed_empty_calls {T : Type} (s : BlockDeque T) (hc : s.isClose_ = true)
    (he : s.deq_ = []) :
    (∀ item, s.push_back item = some s) ∧ (∀ item, s.push_front item = some s) ∧
    s.pop = some { ret := false, item := none, q := s } ∧
    (∀ t, s.popTimeout t = { ret := false, item := none, q := s }) := by
  obtain ⟨d, c, cl⟩ := s
  simp only at hc he
  subst hc; subst he
  refine ⟨fun _ => by simp [push_back], fun _ => by simp [push_front], by simp [pop],
    fun _ => by simp [popTimeout]⟩

theorem pop_eq_none_iff {T : Type} (s : BlockDeque T) :
    s.pop = none ↔
      (s.isClose_ = false ∧ s.deq_ = []) ∨ (s.isClose_ = true ∧ s.deq_ ≠ []) := by
  obtain ⟨d, c, cl⟩ := s
  cases d <;> cases cl <;> simp [pop]

end BlockDeque

/-- C14: `Close()` empties the deque and sets the closed flag in one step.  Every
state reached afterwards through completed calls is closed and empty (it is the
state `Close()` left); in it `push_back` and `push_front` return without
inserting, and `pop` and the timed `pop` return `false` without waiting.  No
state reachable from construction is closed with a non-empty deque; `pop` waits
exactly in the open empty states and in the closed non-empty ones. -/
theorem C14_close {T : Type} (q : BlockDeque T) :
    (q.Close.deq_ = [] ∧ q.Close.isClose_ = true) ∧
    (∀ q1, Relation.ReflTransGen BlockDeque.Step q.Close q1 →
      q1.isClose_ = true ∧ q1.deq_ = [] ∧ q1.size = 0 ∧
      (∀ item, q1.push_back item = some q1) ∧ (∀ item, q1.push_front item = some q1) ∧
      q1.pop = some { ret := false, item := none, q := q1 } ∧
      (∀ t, q1.popTimeout t = { ret := false, item := none, q := q1 })) ∧
    (q.Reachable → q.isClose_ = true → q.deq_ = []) ∧
    (q.pop = none ↔
      (q.isClose_ = false ∧ q.deq_ = []) ∨ (q.isClose_ = true ∧ q.deq_ ≠ [])) := by
  refine ⟨⟨rfl, rfl⟩, ?_, fun hr => (BlockDeque.Reachable_inv q hr).1.2,
    BlockDeque.pop_eq_none_iff q⟩
  intro q1 h
  have h1 := BlockDeque.closed_empty_steps q.Close q1 rfl rfl h
  subst h1
  obtain ⟨a, b, c, d⟩ := BlockDeque.closed_empty_calls q.Close rfl rfl
  exact ⟨rfl, rfl, rfl, a, b, c, d⟩

/-- C14 on the queue of capacity 2 holding 1 and 2: after `Close()` a
`push_back(3)` leaves the queue closed and empty. -/
theorem C14_close_witness :
    (BlockDeque.mk [1, 2] 2 false : BlockDeque Nat).Close = BlockDeque.mk [] 2 true ∧
    (BlockDeque.mk [] 2 true : BlockDeque Nat).push_back 3 = some (BlockDeque.mk [] 2 true) ∧
    ((BlockDeque.mk [1, 2] 2 false : BlockDeque Nat).Close.deq_ = [] ∧
      (BlockDeque.mk [1, 2] 2 false : BlockDeque Nat).Close.isClose_ = true) :=
  ⟨rfl, rfl, (C14_close (BlockDeque.mk [1, 2] 2 false : BlockDeque Nat)).1⟩

namespace BlockDeque

theorem push_back_wait_blocked {T : Type} (item : T)
    (others : List (BlockDeque T → BlockDeque T)) :
    ∀ q : BlockDeque T, q.FullOpen →
      (∀ act ∈ others, ∀ s : BlockDeque T, s.FullOpen → (act s).FullOpen) →
      (others.foldl (fun s act => act s) q).FullOpen ∧
      q.push_back_wait item others = none ∧
      ∀ more, q.push_back_wait item (others ++ more)
        = (others.foldl (fun s act => act s) q).push_back_wait item more := by
  have hwait : ∀ s : BlockDeque T, s.FullOpen → s.push_back item = none := by
    intro s hs
    unfold push_back
    rw [if_pos ⟨by have := hs.2.1; omega, hs.1⟩]
  induction others with
  | nil =>
    intro q hq _
    exact ⟨hq, hwait q hq, fun _ => rfl⟩
  | cons act rest ih =>
    intro q hq hk
    have hq1 := hk act (List.mem_cons_self _ _) q hq
    obtain ⟨h1, h2, h3⟩ := ih (act q) hq1 (fun a ha => hk a (List.mem_cons_of_mem _ ha))
    refine ⟨h1, ?_, ?_⟩
    · simp only [push_back_wait, hwait q hq]; exact h2
    · intro more
      simp only [List.cons_append, push_back_wait, hwait q hq, List.foldl_cons]
      exact h3 more

theorem push_back_after_pop {T : Type} (q : BlockDeque T) (item : T) (hq : q.FullOpen) :
    ∃ y rest, q.deq_ = y :: rest ∧
      q.pop = some { ret := true, item := some y, q := { q with deq_ := rest } } ∧
      q.popSection = { q with deq_ := rest } ∧
      q.push_back_wait item [popSection] = some { q with deq_ := rest ++ [item] } := by
  obtain ⟨d, c, cl⟩ := q
  obtain ⟨h1, h2, h3⟩ := hq
  simp only at h1 h2 h3
  subst h1
  cases d with
  | nil => simp only [List.length_nil] at h2; omega
  | cons y rest =>
    have hpop : (BlockDeque.mk (y :: rest) c false).pop
        = some { ret := true, item := some y, q := BlockDeque.mk rest c false } := by
      simp [pop]
    have hsec : (BlockDeque.mk (y :: rest) c false).popSection = BlockDeque.mk rest c false := by
      simp [popSection, hpop]
    have hw : (BlockDeque.mk (y :: rest) c false).push_back item = none := by
      unfold push_back; rw [if_pos ⟨by simp only; omega, rfl⟩]
    have hp : (BlockDeque.mk rest c false).push_back item
        = some (BlockDeque.mk (rest ++ [item]) c false) := by
      unfold push_back
      simp only [List.length_cons] at h2
      rw [if_neg (by simp only; omega)]
      rfl
    refine ⟨y, rest, rfl, hpop, hsec, ?_⟩
    simp only [push_back_wait, hw, hsec, hp]

end BlockDeque
end Weberver

namespace Weberver

/-- C15: on an open queue with `size() == capacity()` a `push_back` call waits
and inserts nothing, and it goes on waiting as long as the critical sections of
the other threads leave the queue full and open.  Once a `pop` has removed the
front item, the waiting call completes, and its item is the last element of the
deque, behind the items that were left. -/
theorem C15_push_back_waits {T : Type} (q : BlockDeque T) (item : T)
    (hopen : q.isClose_ = false) (hfull : q.size = q.capacity) (hcap : 0 < q.capacity) :
    q.push_back item = none ∧
    (∀ others : List (BlockDeque T → BlockDeque T),
      (∀ act ∈ others, ∀ s : BlockDeque T, s.FullOpen → (act s).FullOpen) →
      q.push_back_wait item others = none ∧
      ∃ y rest, (others.foldl (fun s act => act s) q).deq_ = y :: rest ∧
        q.push_back_wait item (others ++ [BlockDeque.popSection])
          = some { others.foldl (fun s act => act s) q with deq_ := rest ++ [item] }) ∧
    ∃ y rest, q.deq_ = y :: rest ∧
      q.pop = some { ret := true, item := some y, q := { q with deq_ := rest } } ∧
      q.push_back_wait item [BlockDeque.popSection] = some { q with deq_ := rest ++ [item] } ∧
      BlockDeque.back { q with deq_ := rest ++ [item] } = some item := by
  have hq : q.FullOpen := ⟨hopen, hfull, hcap⟩
  refine ⟨?_, ?_, ?_⟩
  · exact (BlockDeque.push_back_wait_blocked item [] q hq (fun _ h => by cases h)).2.1
  · intro others hk
    obtain ⟨h1, h2, h3⟩ := BlockDeque.push_back_wait_blocked item others q hq hk
    refine ⟨h2, ?_⟩
    obtain ⟨y, rest, hd, _, _, hw⟩ := BlockDeque.push_back_after_pop _ item h1
    exact ⟨y, rest, hd, by rw [h3]; exact hw⟩
  · obtain ⟨y, rest, hd, hp, _, hw⟩ := BlockDeque.push_back_after_pop q item hq
    exact ⟨y, rest, hd, hp, hw, by simp [BlockDeque.back]⟩

/-- C15 on the queue of capacity 2: `push_back(1)` and `push_back(2)` complete
at once, `push_back(3)` waits, `pop()` removes 1, then 3 is accepted, and the
next `pop()` calls yield 2 and 3. -/
theorem C15_push_back_waits_witness :
    (BlockDeque.init 2 : Option (BlockDeque Nat)) = some (BlockDeque.mk [] 2 false) ∧
    (BlockDeque.mk [] 2 false : BlockDeque Nat).push_back 1 = some (BlockDeque.mk [1] 2 false) ∧
    (BlockDeque.mk [1] 2 false : BlockDeque Nat).push_back 2 = some (BlockDeque.mk [1, 2] 2 false) ∧
    (BlockDeque.mk [1, 2] 2 false : BlockDeque Nat).isClose_ = false ∧
    (BlockDeque.mk [1, 2] 2 false : BlockDeque Nat).size
      = (BlockDeque.mk [1, 2] 2 false : BlockDeque Nat).capacity ∧
    0 < (BlockDeque.mk [1, 2] 2 false : BlockDeque Nat).capacity ∧
    (BlockDeque.mk [1, 2] 2 false : BlockDeque Nat).push_back 3 = none ∧
    (BlockDeque.mk [1, 2] 2 false : BlockDeque Nat).pop
      = some { ret := true, item := some 1, q := BlockDeque.mk [2] 2 false } ∧
    (BlockDeque.mk [1, 2] 2 false : BlockDeque Nat).push_back_wait 3 [BlockDeque.popSection]
      = some (BlockDeque.mk [2, 3] 2 false) ∧
    (BlockDeque.mk [2, 3] 2 false : BlockDeque Nat).pop
      = some { ret := true, item := some 2, q := BlockDeque.mk [3] 2 false } ∧
    (BlockDeque.mk [3] 2 false : BlockDeque Nat).pop
      = some { ret := true, item := some 3, q := BlockDeque.mk [] 2 false } :=
  ⟨rfl, rfl, rfl, rfl, rfl, by decide,
    (C15_push_back_waits (BlockDeque.mk [1, 2] 2 false) 3 rfl rfl (by decide)).1,
    rfl, rfl, rfl, rfl⟩

end Weberver
